import Mathlib

/-!
Verification of the container / algorithm library (tstl).

The definitions below are shallow embeddings of the TypeScript sources:
`src/deque.ts`, `src/algorithm.ts`, `src/unordered_map.ts`,
`src/src/std/base/containers/*` and `src/unnamed/part_*`.  Element types are
specialised to integers (algorithms) and natural-number keys/values (maps);
the generic hash function is kept as an explicit parameter.  JavaScript
`number` indices are modelled as `Int` (a deque's end iterator carries the
index `-1`, exactly as in `deque.ts`).
-/

set_option maxHeartbeats 1000000

namespace TSTL

/-! ### Deque and its random-access iterators (src/deque.ts)

A deque is modelled by its element list.  An iterator of a deque is just an
index: `-1` is the `end()` sentinel (`deque.ts` line 201 creates `end_` with
index `-1`), and `0 ≤ i < size` are element positions. -/

/-- Element access used by the `value` getter of `DequeIterator`
(`deque.ts`, `at` without the bounds-check branch that cannot fire there).
`none` models the JavaScript `undefined` that an out-of-bounds matrix read
produces. -/
def dqAt (d : List Int) (i : Int) : Option Int :=
  if 0 ≤ i ∧ i < (d.length : Int) then some (d.getD i.toNat 0) else none

/-- `Deque.at` with its bounds check (`deque.ts` lines 450-457): it raises
Out-Of-Range only when `index > size`; any other index is fetched from the
matrix, yielding `undefined` (here `none`) when the position holds no
element. -/
def dequeAtChecked (d : List Int) (i : Int) : Except Unit (Option Int) :=
  if i > (d.length : Int) then Except.error () else Except.ok (dqAt d i)

/-- `DequeIterator.next` (`deque.ts` lines 1014-1020). -/
def dqNext (d : List Int) (i : Int) : Int :=
  if i ≥ (d.length : Int) - 1 then -1 else i + 1

/-- `DequeIterator.prev` (`deque.ts` lines 1001-1009): from the end sentinel
it moves to the last element; from position `0` it yields the end sentinel. -/
def dqPrev (d : List Int) (i : Int) : Int :=
  if i = -1 then (d.length : Int) - 1
  else if i - 1 < 0 then -1
  else i - 1

/-- Target index computed by `DequeIterator.advance` (the `new_index` local
of `deque.ts` lines 1025-1037). -/
def dqAdvanceTarget (d : List Int) (i n : Int) : Int :=
  if n < 0 ∧ i = -1 then (d.length : Int) + n else i + n

/-- `DequeIterator.advance` (`deque.ts` lines 1025-1037): index arithmetic,
with every out-of-range target collapsed to the end sentinel. -/
def dqAdvance (d : List Int) (i n : Int) : Int :=
  if dqAdvanceTarget d i n < 0 ∨ dqAdvanceTarget d i n ≥ (d.length : Int) then -1
  else dqAdvanceTarget d i n

/-- The global `distance` utility (`src/unnamed/part_002`): for iterators
exposing an `index` it returns `Math.abs(last.index - first.index)`. -/
def iterDistance (first last : Int) : Nat := (last - first).natAbs

/-- Loop body of `lower_bound` (`src/algorithm.ts` lines 2817-2839),
specialised to the default `less` comparator on integers.  The `count`
argument strictly decreases on every iteration, so running the loop with
`count` itself as structural fuel is exact.  A comparison against the value
of the end sentinel models the JavaScript `less(undefined, val) == false`. -/
def lowerBoundLoop (d : List Int) (val : Int) : Nat → Int → Nat → Int
  | 0, first, _ => first
  | fuel + 1, first, count =>
    if count = 0 then first
    else
      let step : Nat := count / 2
      let it : Int := dqAdvance d first (step : Int)
      let c : Bool :=
        match dqAt d it with
        | some v => decide (v < val)
        | none => false
      if c then lowerBoundLoop d val fuel first step
      else lowerBoundLoop d val fuel (dqNext d it) (count - (step + 1))

/-- `lower_bound` (`src/algorithm.ts` lines 2817-2839) on a deque-backed
range `[first, last)`. -/
def lower_bound (d : List Int) (first last : Int) (val : Int) : Int :=
  lowerBoundLoop d val (iterDistance first last) first (iterDistance first last)

/-- `binary_search` (`src/algorithm.ts` lines 3080-3089):
`first = lower_bound(...); return !first.equals(last) && !compare(val, first.value)`.
The right conjunct is only evaluated when `first` differs from `last`
(JavaScript short-circuit), and `compare(val, undefined)` is `false`. -/
def binary_search (d : List Int) (first last : Int) (val : Int) : Bool :=
  let f := lower_bound d first last val
  if f = last then false
  else
    match dqAt d f with
    | some v => decide (¬ val < v)
    | none => true

/-! ### Sorting (src/algorithm.ts: sort, qsort, qsort_partition, is_sorted) -/

/-- Swap of the values at two positions of the backing container
(`iter_swap`, and the `container.set` pairs in `qsort_partition`). -/
def listSwapN (c : List Int) (i j : Nat) : List Int :=
  let vi := c.getD i 0
  let vj := c.getD j 0
  (c.set i vj).set j vi

/-- Index-typed wrapper for call sites whose indices are JavaScript
numbers. -/
def listSwap (c : List Int) (i j : Int) : List Int := listSwapN c i.toNat j.toNat

/-- Inner ascending scan of `qsort_partition`
(`while (compare(container.at(++i), standard)) if (i == last) break;`).
The fuel bounds the number of increments; it is always called with more fuel
than remaining positions. -/
def qsortScanUp (cmp : Int → Int → Bool) (c : List Int) (std : Int) (last : Int) :
    Nat → Int → Int
  | 0, i => i + 1
  | fuel + 1, i =>
    let i2 := i + 1
    if cmp (c.getD i2.toNat 0) std then
      if i2 = last then i2 else qsortScanUp cmp c std last fuel i2
    else i2

/-- Inner descending scan of `qsort_partition`
(`while (compare(standard, container.at(--j))) if (j == first) break;`). -/
def qsortScanDown (cmp : Int → Int → Bool) (c : List Int) (std : Int) (first : Int) :
    Nat → Int → Int
  | 0, j => j - 1
  | fuel + 1, j =>
    let j2 := j - 1
    if cmp std (c.getD j2.toNat 0) then
      if j2 = first then j2 else qsortScanDown cmp c std first fuel j2
    else j2

/-- Outer loop of `qsort_partition` (`src/algorithm.ts` lines 2240-2274):
scan up, scan down, stop when the cursors cross, otherwise swap and repeat. -/
def qsortPartLoop (cmp : Int → Int → Bool) (std : Int) (first last : Int) :
    Nat → List Int → Int → Int → List Int × Int
  | 0, c, _, j => (c, j)
  | fuel + 1, c, i, j =>
    let i2 := qsortScanUp cmp c std last (c.length + 2) i
    let j2 := qsortScanDown cmp c std first (c.length + 2) j
    if i2 ≥ j2 then (c, j2)
    else qsortPartLoop cmp std first last fuel (listSwap c i2 j2) i2 j2

/-- `qsort_partition` (`src/algorithm.ts` lines 2240-2274): Hoare-style
partition with the first element as pivot; finishes by swapping the pivot
into position `j` and returns the final container together with `j`. -/
def qsort_partition (cmp : Int → Int → Bool) (c : List Int) (first last : Int) :
    List Int × Int :=
  let std := c.getD first.toNat 0
  let (c1, j) := qsortPartLoop cmp std first last (c.length + 2) c first (last + 1)
  (listSwap c1 first j, j)

/-- `qsort` (`src/algorithm.ts` lines 2224-2235): the sentinel `last == -2`
(stemming from `end().index - 1` with the deque's end index `-1`) is replaced
by `size - 1`; ranges with `first ≥ last` are left untouched.  The fuel
bounds the recursion depth and is always sufficient for the evaluations
below. -/
def qsortFuel (cmp : Int → Int → Bool) : Nat → List Int → Int → Int → List Int
  | 0, c, _, _ => c
  | fuel + 1, c, first, last =>
    let last2 := if last = -2 then (c.length : Int) - 1 else last
    if first ≥ last2 then c
    else
      let (c1, j) := qsort_partition cmp c first last2
      let c2 := qsortFuel cmp fuel c1 first (j - 1)
      qsortFuel cmp fuel c2 (j + 1) last2

/-- `sort(first, last, compare)` (`src/algorithm.ts` lines 1935-1939) applied
to the full range of a deque: it calls
`qsort(container, first.index, last.index - 1)`; `begin()` of a non-empty
deque has index `0` (of an empty one, index `-1`), and `end().index - 1`
is `-2`. -/
def sortDeque (cmp : Int → Int → Bool) (d : List Int) : List Int :=
  qsortFuel cmp (d.length + 2) d (if d.length = 0 then -1 else 0) (-2)

/-- `is_sorted` pairwise walk: the source body compares with the hard-coded
`less`, like `if (less(next.value, first.value)) return false`. -/
def isSortedWalk : Int → List Int → Bool
  | _, [] => true
  | a, b :: r => if b < a then false else isSortedWalk b r

/-- `is_sorted` (`src/algorithm.ts` lines 2132-2146).  The `compare`
parameter is part of the source signature but is never used by the body,
which always compares with the global `less`. -/
def is_sorted (d : List Int) (compare : Int → Int → Bool) : Bool :=
  match compare, d with
  | _, [] => true
  | _, a :: r => isSortedWalk a r

/-! ### Set algebra on sorted ranges (src/algorithm.ts) with the default
`less` comparator.  Input ranges are consumed strictly forwards, so lists
model them exactly; the output iterator collects assigned values in order.
Each loop consumes at least one element per iteration, so a fuel of
`l1.length + l2.length + 1` runs every loop to completion. -/

/-- `set_union` (`src/algorithm.ts` lines 3624-3662): synchronized merge;
when either input range is exhausted the rest of the other one is copied;
on ties the left element is emitted and both advance. -/
def setUnionFuel : Nat → List Int → List Int → List Int
  | 0, _, l2 => l2
  | _, [], l2 => l2
  | _, l1, [] => l1
  | fuel + 1, x :: l1, y :: l2 =>
    if x < y then x :: setUnionFuel fuel l1 (y :: l2)
    else if y < x then y :: setUnionFuel fuel (x :: l1) l2
    else x :: setUnionFuel fuel l1 l2

def set_union (l1 l2 : List Int) : List Int :=
  setUnionFuel (l1.length + l2.length + 1) l1 l2

/-- `set_intersection` (`src/algorithm.ts` lines 3740-3769).  Note: when one
input range is exhausted, the source returns `copy(rest of the other range)`
into the output — the remaining elements of the unexhausted range are
appended to the intersection. -/
def setIntersectionFuel : Nat → List Int → List Int → List Int
  | 0, _, l2 => l2
  | _, [], l2 => l2
  | _, l1, [] => l1
  | fuel + 1, x :: l1, y :: l2 =>
    if x < y then setIntersectionFuel fuel l1 (y :: l2)
    else if y < x then setIntersectionFuel fuel (x :: l1) l2
    else x :: setIntersectionFuel fuel l1 l2

def set_intersection (l1 l2 : List Int) : List Int :=
  setIntersectionFuel (l1.length + l2.length + 1) l1 l2

/-- `set_difference` (`src/algorithm.ts` lines 3859-3885): the loop runs
while both ranges are non-empty (the body compares with the hard-coded
`less`), then copies the rest of the first range. -/
def setDifferenceFuel : Nat → List Int → List Int → List Int
  | 0, l1, _ => l1
  | _, l1, [] => l1
  | _, [], _ => []
  | fuel + 1, x :: l1, y :: l2 =>
    if x < y then x :: setDifferenceFuel fuel l1 (y :: l2)
    else if y < x then setDifferenceFuel fuel (x :: l1) l2
    else setDifferenceFuel fuel l1 l2

def set_difference (l1 l2 : List Int) : List Int :=
  setDifferenceFuel (l1.length + l2.length + 1) l1 l2

/-! ### next_permutation (src/algorithm.ts lines 4507-4540)

The range is a random-access mutable sequence of integers with the default
`less` comparator.  The source walks a cursor pair `(i, x) = (i, i.next())`
from the right end; the embedding recurses on the right index `x` of that
pair, which decreases by one per iteration. -/

/-- The inner scan `y = last.prev(); while (compare(i.value, y.value) == false)
y = y.prev();` — from the right end, the first position whose value exceeds
the pivot.  (The source loop would not terminate if no such position
existed; the algorithm only runs it when position `x > i` qualifies, so the
`0` case is never reached without `p < l[0]`.) -/
def npFindY (l : List Int) (p : Int) : Nat → Nat
  | 0 => 0
  | y + 1 => if p < l.getD (y + 1) 0 then y + 1 else npFindY l p y

/-- One pass of the `while (true)` loop of `next_permutation`, at right
index `x`: when `l[x-1] < l[x]`, swap the pivot `l[x-1]` with the rightmost
greater element and reverse the suffix from `x`, returning `true`; when the
cursor reaches the front, reverse the whole range and return `false`;
otherwise continue leftwards.  (The `0` pattern is unreachable: the loop is
entered with `x ≥ 1` and stops at `x = 1`.) -/
def npLoop (l : List Int) : Nat → List Int × Bool
  | 0 => (l.reverse, false)
  | x + 1 =>
    if l.getD x 0 < l.getD (x + 1) 0 then
      let y := npFindY l (l.getD x 0) (l.length - 1)
      let l2 := listSwapN l x y
      (l2.take (x + 1) ++ (l2.drop (x + 1)).reverse, true)
    else if x = 0 then (l.reverse, false)
    else npLoop l x

/-- `next_permutation` (`src/algorithm.ts` lines 4507-4540): empty and
singleton ranges yield `false` unchanged (`first.equals(last)` /
`first.equals(last.prev())`); otherwise the loop starts with
`i = last.prev()`. -/
def next_permutation (l : List Int) : List Int × Bool :=
  if l.length ≤ 1 then (l, false) else npLoop l (l.length - 1)

/-- The range contents after `j` successive `next_permutation` calls. -/
def npState (l : List Int) : Nat → List Int
  | 0 => l
  | j + 1 => (next_permutation (npState l j)).1

/-- The range contents visited by calls `1..n` (the state after each
call). -/
def npStates (l : List Int) (n : Nat) : List (List Int) :=
  (List.range n).map (fun j => npState l (j + 1))

/-- The boolean results of calls `1..n`. -/
def npFlags (l : List Int) (n : Nat) : List Bool :=
  (List.range n).map (fun j => (next_permutation (npState l j)).2)

/-- Strictly descending contents, stated on the indexed reads the loop
performs. -/
def StrictDesc (l : List Int) : Prop :=
  ∀ i, i + 1 < l.length → l.getD (i + 1) 0 < l.getD i 0

/-- The full-cycle behaviour of `next_permutation` on a sorted
duplicate-free range: after `length!` calls the range is back at its
ascending arrangement, every call but the last reported `true`, and the
intermediate states enumerate every permutation exactly once. -/
def NPGood (l : List Int) : Prop :=
  npState l (Nat.factorial l.length) = l
  ∧ npFlags l (Nat.factorial l.length)
      = List.replicate (Nat.factorial l.length - 1) true ++ [false]
  ∧ (npStates l (Nat.factorial l.length)).Nodup
  ∧ (∀ w, w ∈ npStates l (Nat.factorial l.length) ↔ w.Perm l)

/-! ### Iterator equality (src/unnamed/part_002 and src/deque.ts) -/

/-- A deque iterator as a value: the identity of its source container and
its positional index (the position of a deque iterator is exactly its
index; `-1` is the end sentinel). -/
structure DequeIterM where
  src : Nat
  idx : Int
deriving DecidableEq

/-- The abstract `Iterator.equals` (`src/unnamed/part_002` lines 121-124):
it compares the source container reference only. -/
def iterEqualsBase (a b : DequeIterM) : Bool := a.src == b.src

/-- `DequeIterator.equals` (`src/deque.ts` lines 1045-1048):
`super.equals(obj) && this.index_ == obj.index_`. -/
def dequeIterEquals (a b : DequeIterM) : Bool :=
  iterEqualsBase a b && (a.idx == b.idx)

/-- The `value` getter of a deque iterator, reading through the source
container (`env` maps container identities to their contents). -/
def dequeIterValue (env : Nat → List Int) (a : DequeIterM) : Option Int :=
  dqAt (env a.src) a.idx

/-! ### Hashed map containers (src/unordered_map.ts, src/unnamed/part_001,
src/src/std/base/containers/{MapContainer,UniqueMap,MultiMap}.ts)

A unique hashed map is modelled by its element list (insertion order) and
its bucket array.  A bucket stores iterator handles into the element list;
for a unique map a handle is identified by its key (keys are logically
immutable and unique), so buckets are lists of keys and dereferencing a
handle looks the entry up in the element list.  Keys and mapped values are
naturals, and the hash function is an explicit parameter. -/

structure HMap where
  entries : List (Nat × Nat)
  buckets : List (List Nat)
deriving DecidableEq

/-- Bucket access `hash_buckets_.at(index)`. -/
def bucketGet (bs : List (List Nat)) (i : Nat) : List Nat := bs.getD i []

/-- `_MapHashBuckets.find` (`src/unnamed/part_001`): compute
`hash(key) % size`, scan that bucket for the first handle whose key is
`equal_to` the key, return the referenced entry; `end()` becomes `none`. -/
def hmFind (hashFn : Nat → Nat) (m : HMap) (k : Nat) : Option (Nat × Nat) :=
  match (bucketGet m.buckets (hashFn k % m.buckets.length)).find? (fun k2 => k2 == k) with
  | none => none
  | some k2 => m.entries.find? (fun e => e.1 == k2)

/-- Modelled from the spec: the hash bucket engine class `_HashBuckets`
(imported as `./base/hash/_HashBuckets` by `src/unordered_map.ts`) is not
under `src/`.  `rehash(n)` per §4.3: allocate a fresh bucket array with
`≥ n` buckets and re-insert every tracked handle at
`hash(key) mod new_bucket_count`. -/
def bucketsRehash (hashFn : Nat → Nat) (keys : List Nat) (n : Nat) : List (List Nat) :=
  let n2 := max n 1
  (List.range n2).map (fun i => keys.filter (fun k => hashFn k % n2 == i))

/-- Appending a handle to the bucket of its key's hash (the placement step
of the engine's `insert`). -/
def bucketsPlace (hashFn : Nat → Nat) (bs : List (List Nat)) (k : Nat) : List (List Nat) :=
  bs.set (hashFn k % bs.length) (bucketGet bs (hashFn k % bs.length) ++ [k])

/-- Modelled from the spec: `_HashBuckets.insert` is not under `src/`.
Per §3/§4.3: before an insertion that would push `size / bucket_count`
above `max_load_factor` (default 1.0), rehash to a target `≥ size × 2`
(growth ratio 2×); then append the handle to its bucket. -/
def bucketsInsert (hashFn : Nat → Nat) (bs : List (List Nat)) (k : Nat) : List (List Nat) :=
  bucketsPlace hashFn
    (if bs.length < bs.flatten.length + 1 then
      bucketsRehash hashFn bs.flatten (2 * (bs.flatten.length + 1))
    else bs) k

/-- `HashMap._Insert_by_pair` (`src/unordered_map.ts` lines 318-333): if the
key is found, return the existing position with `false` and change nothing;
otherwise append the pair to the element list and register its handle with
the bucket engine, returning the new position with `true`. -/
def hmInsert (hashFn : Nat → Nat) (m : HMap) (k v : Nat) :
    HMap × (Option (Nat × Nat) × Bool) :=
  match hmFind hashFn m k with
  | some it => (m, (some it, false))
  | none =>
    (⟨m.entries ++ [(k, v)], bucketsInsert hashFn m.buckets k⟩, (some (k, v), true))

/-- Write-through of `it.second = value` on the element list: the first
entry with the matching key keeps its key and node identity and gets the
new mapped value. -/
def assocSet : List (Nat × Nat) → Nat → Nat → List (Nat × Nat)
  | [], _, _ => []
  | e :: r, k, v => if e.1 == k then (e.1, v) :: r else e :: assocSet r k v

/-- `UniqueMap._Insert_or_assign_with_key_value`
(`src/src/std/base/containers/UniqueMap.ts` lines 54-65): emplace when the
key is absent, otherwise assign through the found iterator and return it
with `false`.  Buckets hold handles, so assignment leaves them unchanged. -/
def hmInsertOrAssign (hashFn : Nat → Nat) (m : HMap) (k v : Nat) :
    HMap × (Option (Nat × Nat) × Bool) :=
  match hmFind hashFn m k with
  | none => hmInsert hashFn m k v
  | some _ => (⟨assocSet m.entries k v, m.buckets⟩, (some (k, v), false))

/-- Modelled from the spec: `_HashBuckets.erase` is not under `src/`
(§4.3: compute the bucket index, linear-scan-remove the matching handle). -/
def bucketsErase (hashFn : Nat → Nat) (bs : List (List Nat)) (k : Nat) : List (List Nat) :=
  let idx := hashFn k % bs.length
  bs.set idx ((bucketGet bs idx).erase k)

/-- Removal of one node from the element list (`_Erase_by_range` on the
single iterator found by key). -/
def removeFirstKey : List (Nat × Nat) → Nat → List (Nat × Nat)
  | [], _ => []
  | e :: r, k => if e.1 == k then r else e :: removeFirstKey r k

/-- `MapContainer._Erase_by_key`
(`src/src/std/base/containers/MapContainer.ts` lines 177-185): find the key;
when absent return `0`; otherwise erase that single iterator (element list
node plus its bucket handle, via `_Handle_erase`) and return `1`.
`MultiMap` does not override this. -/
def hmErase (hashFn : Nat → Nat) (m : HMap) (k : Nat) : HMap × Nat :=
  match hmFind hashFn m k with
  | none => (m, 0)
  | some it =>
    (⟨removeFirstKey m.entries it.1, bucketsErase hashFn m.buckets it.1⟩, 1)

/-- `HashMap.max_load_factor()` in getter position
(`src/unordered_map.ts` lines 272-278): `this.size() / this.bucket_count()`
as a rational (JavaScript number division). -/
def hmMaxLoadFactor (m : HMap) : ℚ :=
  (m.entries.length : ℚ) / (m.buckets.length : ℚ)

/-- Well-formedness of a hashed unique map: at least one bucket, every
handle lives in the bucket of its key's hash, the bucket handles are a
permutation of the element-list keys, and keys are unique. -/
def HWf (hashFn : Nat → Nat) (m : HMap) : Prop :=
  0 < m.buckets.length
  ∧ (∀ i < m.buckets.length, ∀ k ∈ bucketGet m.buckets i, hashFn k % m.buckets.length = i)
  ∧ m.buckets.flatten.Perm (m.entries.map Prod.fst)
  ∧ (m.entries.map Prod.fst).Nodup

instance (hashFn : Nat → Nat) (m : HMap) : Decidable (HWf hashFn m) := by
  unfold HWf
  infer_instance

/-! ### Hashed multi map (value-level model for erase-by-key)

Entries of a multi map are identified by a unique insertion id (the node
identity of the element list); buckets hold ids.  Insertion always appends
(`HashMultiMap._Insert_by_pair`, `src/unordered_map.ts` lines 760-767);
the bucket engine is the same spec-modelled `_HashBuckets`. -/

structure MMap where
  entries : List (Nat × Nat × Nat)
  buckets : List (List Nat)
  fresh : Nat
deriving DecidableEq

/-- Key of the entry referenced by a handle (iterator dereference). -/
def mmKeyOf (entries : List (Nat × Nat × Nat)) (uid : Nat) : Nat :=
  match entries.find? (fun e => e.1 == uid) with
  | some e => e.2.1
  | none => 0

/-- `_MapHashBuckets.find` for the multi map: scan the key's bucket for the
first handle whose referenced entry has an equal key. -/
def mmFind (hashFn : Nat → Nat) (m : MMap) (k : Nat) : Option (Nat × Nat × Nat) :=
  match (bucketGet m.buckets (hashFn k % m.buckets.length)).find?
      (fun uid => mmKeyOf m.entries uid == k) with
  | none => none
  | some uid => m.entries.find? (fun e => e.1 == uid)

/-- Modelled from the spec: `_HashBuckets.insert` (growth trigger and
placement) for id handles, hashing each handle through its entry's key. -/
def mmBucketsInsert (hashFn : Nat → Nat) (entries : List (Nat × Nat × Nat))
    (bs : List (List Nat)) (uid : Nat) : List (List Nat) :=
  let s2 := bs.flatten.length + 1
  let n2 := max (2 * s2) 1
  let bs2 :=
    if bs.length < s2 then
      (List.range n2).map (fun i =>
        bs.flatten.filter (fun u => hashFn (mmKeyOf entries u) % n2 == i))
    else bs
  let idx := hashFn (mmKeyOf entries uid) % bs2.length
  bs2.set idx (bucketGet bs2 idx ++ [uid])

/-- `HashMultiMap._Insert_by_pair` (`src/unordered_map.ts` lines 760-767):
always append a new entry to the element list and register its handle. -/
def mmInsert (hashFn : Nat → Nat) (m : MMap) (k v : Nat) : MMap :=
  let e2 := m.entries ++ [(m.fresh, k, v)]
  { entries := e2
    buckets := mmBucketsInsert hashFn e2 m.buckets m.fresh
    fresh := m.fresh + 1 }

/-- Removal of the node with the given id from the element list. -/
def mmRemoveEntry : List (Nat × Nat × Nat) → Nat → List (Nat × Nat × Nat)
  | [], _ => []
  | e :: r, uid => if e.1 == uid then r else e :: mmRemoveEntry r uid

/-- `MapContainer._Erase_by_key` on the multi map: the same single-iterator
erase — find the first matching entry, erase that one node and its handle,
return `1` (or `0` when no key matches). -/
def mmErase (hashFn : Nat → Nat) (m : MMap) (k : Nat) : MMap × Nat :=
  match mmFind hashFn m k with
  | none => (m, 0)
  | some e =>
    let idx := hashFn e.2.1 % m.buckets.length
    ({ entries := mmRemoveEntry m.entries e.1
       buckets := m.buckets.set idx ((bucketGet m.buckets idx).erase e.1)
       fresh := m.fresh }, 1)

/-- Number of entries of the multi map whose key equals `k` (`count`). -/
def mmKeyCount (m : MMap) (k : Nat) : Nat :=
  (m.entries.filter (fun e => e.2.1 == k)).length

/-! ## Claims about the algorithm layer -/

/-- C2: evaluation of the code on the spec's scenario.  On the repository's
random-access container (a deque, whose `end()` iterator has index `-1`),
`binary_search([1,3,5,7,9], 4)` returns `true` — not `false` as the claim
states — and `lower_bound([1,3,5,7,9], 4)` returns the iterator at index
`0` (value `1`), not the position of value `5`: `distance(begin, end)`
evaluates to `|-1 - 0| = 1`, and the branch condition of `lower_bound` is
negated relative to its documentation. -/
theorem c2_binary_search_eval :
    binary_search [1, 3, 5, 7, 9] 0 (-1) 5 = true
    ∧ binary_search [1, 3, 5, 7, 9] 0 (-1) 4 = true
    ∧ ¬ binary_search [1, 3, 5, 7, 9] 0 (-1) 4 = false
    ∧ lower_bound [1, 3, 5, 7, 9] 0 (-1) 4 = 0
    ∧ dqAt [1, 3, 5, 7, 9] 0 = some 1
    ∧ ¬ dqAt [1, 3, 5, 7, 9] (lower_bound [1, 3, 5, 7, 9] 0 (-1) 4) = some 5 := by
  decide

/-- C3: evaluation of the code at a refuting input.  With the sorted
duplicate-free ranges `A = [1]` and `B = [2]`, `set_intersection(A, B)`
emits `[2]` (the leftover of the unexhausted range is copied into the
intersection output), so the intersection output and the `B`-only output
`set_difference(B, A) = [2]` overlap — the three outputs do not partition
`A ∪ B`.  `set_union` itself is correct on this input. -/
theorem c3_set_algebra_eval :
    set_union [1] [2] = [1, 2]
    ∧ set_intersection [1] [2] = [2]
    ∧ set_difference [1] [2] = [1]
    ∧ set_difference [2] [1] = [2]
    ∧ (2 : Int) ∈ set_intersection [1] [2]
    ∧ (2 : Int) ∈ set_difference [2] [1] := by
  decide

/-- C5: evaluation of the code at a refuting input.  `is_sorted` never
consults the supplied comparator (its body compares with the hard-coded
`less`), so sorting `[1, 2]` with the valid strict-weak-order comparator
`gt` yields `[2, 1]`, on which `is_sorted` with that same comparator
returns `false`.  With the default `less` ordering the round-trip does
hold, and `is_sorted` provably gives the same answer for every pair of
comparators. -/
theorem c5_sort_is_sorted_eval :
    sortDeque (fun x y => decide (y < x)) [1, 2] = [2, 1]
    ∧ is_sorted [2, 1] (fun x y => decide (y < x)) = false
    ∧ sortDeque (fun x y => decide (x < y)) [2, 1] = [1, 2]
    ∧ is_sorted [1, 2] (fun x y => decide (x < y)) = true
    ∧ ∀ (c1 c2 : Int → Int → Bool) (d : List Int), is_sorted d c1 = is_sorted d c2 := by
  refine ⟨by decide, by decide, by decide, by decide, ?_⟩
  intro c1 c2 d
  cases d <;> rfl

/-- C7: two deque iterators are `equals` exactly when they reference the
same source container and the same position (index); element values are
never consulted — iterators at distinct positions holding equal values
compare unequal.  (The abstract `Iterator.equals` compares the source only;
the `DequeIterator` override conjoins the index.) -/
theorem c7_iterator_equals :
    (∀ a b : DequeIterM, dequeIterEquals a b = true ↔ a.src = b.src ∧ a.idx = b.idx)
    ∧ dequeIterValue (fun _ => [5, 5]) ⟨0, 0⟩ = dequeIterValue (fun _ => [5, 5]) ⟨0, 1⟩
    ∧ dequeIterEquals ⟨0, 0⟩ ⟨0, 1⟩ = false
    ∧ dequeIterEquals ⟨0, 2⟩ ⟨1, 2⟩ = false
    ∧ dequeIterEquals ⟨0, 2⟩ ⟨0, 2⟩ = true := by
  refine ⟨?_, by decide, by decide, by decide, by decide⟩
  intro a b
  simp [dequeIterEquals, iterEqualsBase, Bool.and_eq_true, beq_iff_eq]

/-- C9: `Deque.at` raises Out-Of-Range only for indices strictly greater
than `size` — `at(size)` and negative indices silently yield `undefined`
(`none`), contrary to the claim that it raises exactly outside
`[0, size)`.  Iterator motion (`next`/`prev`/`advance`) never raises:
starting from any iterator the container can produce (an element position
or the end sentinel `-1`), the result is again an element position or the
end sentinel. -/
theorem c9_at_bounds_and_iterator_motion :
    dequeAtChecked [1, 2, 3, 4, 5] 5 = Except.ok none
    ∧ dequeAtChecked [1, 2, 3, 4, 5] (-1) = Except.ok none
    ∧ dequeAtChecked [1, 2, 3, 4, 5] 6 = Except.error ()
    ∧ dequeAtChecked [1, 2, 3, 4, 5] 2 = Except.ok (some 3)
    ∧ (∀ (d : List Int) (i n : Int),
        dqAdvance d i n = -1 ∨ (0 ≤ dqAdvance d i n ∧ dqAdvance d i n < (d.length : Int)))
    ∧ (∀ (d : List Int) (i : Int), (i = -1 ∨ (0 ≤ i ∧ i < (d.length : Int))) →
        dqNext d i = -1 ∨ (0 ≤ dqNext d i ∧ dqNext d i < (d.length : Int)))
    ∧ (∀ (d : List Int) (i : Int), (i = -1 ∨ (0 ≤ i ∧ i < (d.length : Int))) →
        dqPrev d i = -1 ∨ (0 ≤ dqPrev d i ∧ dqPrev d i < (d.length : Int))) := by
  refine ⟨rfl, rfl, rfl, rfl, ?_, ?_, ?_⟩
  · intro d i n
    unfold dqAdvance
    split
    · exact Or.inl rfl
    · rename_i h
      push_neg at h
      omega
  · intro d i h
    unfold dqNext
    rcases h with h | h <;> split <;> omega
  · intro d i h
    unfold dqPrev
    rcases h with h | h <;> split <;> (try split) <;> omega

/-- Witness for C9: the motion conjuncts applied at a concrete iterator,
their validity hypothesis discharged by evaluation. -/
theorem c9_at_bounds_and_iterator_motion_witness :
    dqNext [7, 8] 1 = -1 ∨ (0 ≤ dqNext [7, 8] 1 ∧ dqNext [7, 8] 1 < ((2 : Nat) : Int)) :=
  c9_at_bounds_and_iterator_motion.2.2.2.2.2.1 [7, 8] 1 (Or.inr (by decide))

/-! ## Lemmas about the hashed-map model -/

theorem find?_beq_self {b : List Nat} {k : Nat} (h : k ∈ b) :
    b.find? (fun k2 => k2 == k) = some k := by
  induction b with
  | nil => cases h
  | cons x r ih =>
    by_cases hx : x = k
    · subst hx
      simp [List.find?_cons]
    · have hk : k ∈ r := by
        rcases List.mem_cons.mp h with h1 | h1
        · exact absurd h1.symm hx
        · exact h1
      rw [List.find?_cons_of_neg _ (by simpa using hx)]
      exact ih hk

theorem bucketGet_lt {bs : List (List Nat)} {i : Nat} (h : i < bs.length) :
    bucketGet bs i = bs[i] := List.getD_eq_getElem bs [] h

theorem mem_bucketGet_flatten {bs : List (List Nat)} {i k : Nat}
    (h : k ∈ bucketGet bs i) : k ∈ bs.flatten := by
  by_cases hi : i < bs.length
  · rw [bucketGet_lt hi] at h
    exact List.mem_flatten_of_mem (List.getElem_mem hi) h
  · rw [bucketGet, List.getD_eq_default _ _ (le_of_not_lt hi)] at h
    cases h

/-- Find-correctness: on a well-formed map the bucket-routed `find` agrees
with a linear search of the element list. -/
theorem hmFind_eq {hashFn : Nat → Nat} {m : HMap} (hwf : HWf hashFn m) (k : Nat) :
    hmFind hashFn m k = m.entries.find? (fun e => e.1 == k) := by
  obtain ⟨hpos, hplace, hperm, _⟩ := hwf
  unfold hmFind
  by_cases hk : k ∈ m.entries.map Prod.fst
  · have hkj : k ∈ m.buckets.flatten := hperm.mem_iff.mpr hk
    obtain ⟨b, hb, hkb⟩ := List.mem_flatten.mp hkj
    obtain ⟨i, hi, hbi⟩ := List.getElem_of_mem hb
    have hkbi : k ∈ bucketGet m.buckets i := by
      rw [bucketGet_lt hi, hbi]
      exact hkb
    have hhash : hashFn k % m.buckets.length = i := hplace i hi k hkbi
    rw [hhash, find?_beq_self hkbi]
  · have hnone : (bucketGet m.buckets (hashFn k % m.buckets.length)).find?
        (fun k2 => k2 == k) = none := by
      apply List.find?_eq_none.mpr
      intro x hx hbx
      have hxk : x = k := by simpa using hbx
      subst hxk
      exact hk (hperm.mem_iff.mp (mem_bucketGet_flatten hx))
    rw [hnone]
    symm
    apply List.find?_eq_none.mpr
    intro e he hbe
    have he1 : e.1 = k := by simpa using hbe
    exact hk (he1 ▸ List.mem_map_of_mem Prod.fst he)

theorem length_bucketsRehash (hashFn : Nat → Nat) (keys : List Nat) (n : Nat) :
    (bucketsRehash hashFn keys n).length = max n 1 := by
  simp [bucketsRehash]

theorem bucketGet_bucketsRehash (hashFn : Nat → Nat) (keys : List Nat) (n i : Nat) :
    bucketGet (bucketsRehash hashFn keys n) i =
      if i < max n 1 then keys.filter (fun k => hashFn k % max n 1 == i) else [] := by
  unfold bucketsRehash bucketGet
  by_cases hi : i < max n 1
  · rw [if_pos hi, List.getD_eq_getElem _ _ (by simpa using hi)]
    simp
  · rw [if_neg hi, List.getD_eq_default]
    simpa using le_of_not_lt hi

theorem count_filter_ite (p : Nat → Bool) (l : List Nat) (a : Nat) :
    (l.filter p).count a = if p a then l.count a else 0 := by
  by_cases hp : p a
  · rw [if_pos hp, List.count_filter hp]
  · rw [if_neg hp]
    exact List.count_eq_zero.mpr (fun hmem => hp (List.mem_filter.mp hmem).2)

theorem sum_range_ite (x c : Nat) : ∀ n : Nat, x < n →
    ((List.range n).map (fun i => if x = i then c else 0)).sum = c := by
  intro n
  induction n with
  | zero => omega
  | succ n ih =>
    intro hx
    rw [List.range_succ, List.map_append, List.sum_append]
    by_cases hxn : x = n
    · subst hxn
      have h0 : ((List.range x).map (fun i => if x = i then c else 0)).sum = 0 := by
        apply List.sum_eq_zero
        intro y hy
        obtain ⟨i, hi, rfl⟩ := List.mem_map.mp hy
        have hix : i < x := List.mem_range.mp hi
        rw [if_neg (by omega)]
      simp [h0]
    · have hx2 : x < n := by omega
      rw [ih hx2]
      simp [hxn]

/-- A rehash redistributes exactly the tracked handles: the flattened new
bucket array is a permutation of the input handles. -/
theorem flatten_bucketsRehash_perm (hashFn : Nat → Nat) (keys : List Nat) (n : Nat) :
    (bucketsRehash hashFn keys n).flatten.Perm keys := by
  rw [List.perm_iff_count]
  intro a
  rw [List.count_flatten]
  unfold bucketsRehash
  rw [List.map_map]
  have hcongr : (List.range (max n 1)).map (List.count a ∘ fun i =>
      keys.filter (fun k => hashFn k % max n 1 == i)) =
      (List.range (max n 1)).map (fun i => if hashFn a % max n 1 = i then keys.count a else 0) := by
    apply List.map_congr_left
    intro i _
    show (keys.filter (fun k => hashFn k % max n 1 == i)).count a = _
    rw [count_filter_ite]
    by_cases hc : hashFn a % max n 1 = i
    · rw [if_pos (by simpa using hc), if_pos hc]
    · rw [if_neg (by simpa using hc), if_neg hc]
  rw [hcongr, sum_range_ite _ _ _ (Nat.mod_lt _ (by omega))]

theorem flatten_set_append (k : Nat) : ∀ (bs : List (List Nat)) (i : Nat), i < bs.length →
    (bs.set i (bucketGet bs i ++ [k])).flatten.Perm (bs.flatten ++ [k]) := by
  intro bs
  induction bs with
  | nil => intro i h; simp at h
  | cons b r ih =>
    intro i hi
    cases i with
    | zero =>
      have hb0 : bucketGet (b :: r) 0 = b := rfl
      rw [hb0, List.set_cons_zero, List.flatten_cons, List.flatten_cons,
        List.append_assoc, List.append_assoc]
      exact List.Perm.append_left b List.perm_append_comm
    | succ i =>
      have hi2 : i < r.length := by simpa using hi
      have hb : bucketGet (b :: r) (i + 1) = bucketGet r i := rfl
      rw [hb, List.set_cons_succ, List.flatten_cons, List.flatten_cons,
        List.append_assoc]
      exact List.Perm.append_left b (ih i hi2)

theorem bucketGet_set_self {bs : List (List Nat)} {i : Nat} (h : i < bs.length)
    (x : List Nat) : bucketGet (bs.set i x) i = x := by
  unfold bucketGet
  rw [List.getD_eq_getElem _ _ (by simpa using h)]
  rw [List.getElem_set_self]

theorem bucketGet_set_ne {bs : List (List Nat)} {i j : Nat} (h : i ≠ j)
    (x : List Nat) : bucketGet (bs.set i x) j = bucketGet bs j := by
  unfold bucketGet
  by_cases hj : j < bs.length
  · rw [List.getD_eq_getElem _ _ (by simpa using hj), List.getD_eq_getElem _ _ hj,
      List.getElem_set_ne h]
  · rw [List.getD_eq_default _ _ (by simpa using le_of_not_lt hj),
      List.getD_eq_default _ _ (le_of_not_lt hj)]

/-- The placement step preserves the bucket invariants and appends the new
handle to the tracked multiset. -/
theorem bucketsPlace_wf {hashFn : Nat → Nat} {bs : List (List Nat)} {keys : List Nat}
    (hpos : 0 < bs.length)
    (hplace : ∀ i < bs.length, ∀ k2 ∈ bucketGet bs i, hashFn k2 % bs.length = i)
    (hperm : bs.flatten.Perm keys) (k : Nat) :
    0 < (bucketsPlace hashFn bs k).length
    ∧ (∀ i < (bucketsPlace hashFn bs k).length,
        ∀ k2 ∈ bucketGet (bucketsPlace hashFn bs k) i,
          hashFn k2 % (bucketsPlace hashFn bs k).length = i)
    ∧ (bucketsPlace hashFn bs k).flatten.Perm (keys ++ [k]) := by
  have hidx : hashFn k % bs.length < bs.length := Nat.mod_lt _ hpos
  have hlen : (bucketsPlace hashFn bs k).length = bs.length := by
    simp [bucketsPlace]
  refine ⟨by omega, ?_, ?_⟩
  · intro i hi k2 hk2
    rw [hlen] at hi ⊢
    by_cases hieq : hashFn k % bs.length = i
    · rw [bucketsPlace, ← hieq, bucketGet_set_self hidx] at hk2
      rcases List.mem_append.mp hk2 with hmem | hmem
      · rw [← hieq]
        exact hplace _ hidx k2 hmem
      · have : k2 = k := by simpa using hmem
        subst this
        exact hieq
    · rw [bucketsPlace, bucketGet_set_ne hieq] at hk2
      exact hplace i hi k2 hk2
  · exact (flatten_set_append k bs _ hidx).trans (hperm.append (List.Perm.refl _))

/-- The engine's `insert` (growth trigger followed by placement) preserves
the bucket invariants and appends the new handle. -/
theorem bucketsInsert_wf {hashFn : Nat → Nat} {bs : List (List Nat)} {keys : List Nat}
    (hpos : 0 < bs.length)
    (hplace : ∀ i < bs.length, ∀ k2 ∈ bucketGet bs i, hashFn k2 % bs.length = i)
    (hperm : bs.flatten.Perm keys) (k : Nat) :
    0 < (bucketsInsert hashFn bs k).length
    ∧ (∀ i < (bucketsInsert hashFn bs k).length,
        ∀ k2 ∈ bucketGet (bucketsInsert hashFn bs k) i,
          hashFn k2 % (bucketsInsert hashFn bs k).length = i)
    ∧ (bucketsInsert hashFn bs k).flatten.Perm (keys ++ [k]) := by
  unfold bucketsInsert
  by_cases hgrow : bs.length < bs.flatten.length + 1
  · rw [if_pos hgrow]
    set n2 := 2 * (bs.flatten.length + 1) with hn2
    have hrlen : (bucketsRehash hashFn bs.flatten n2).length = max n2 1 :=
      length_bucketsRehash hashFn bs.flatten n2
    refine bucketsPlace_wf (by omega) ?_ ((flatten_bucketsRehash_perm hashFn bs.flatten n2).trans hperm) k
    intro i hi k2 hk2
    rw [hrlen] at hi ⊢
    rw [bucketGet_bucketsRehash, if_pos hi] at hk2
    have := (List.mem_filter.mp hk2).2
    simpa using this
  · rw [if_neg hgrow]
    exact bucketsPlace_wf hpos hplace hperm k

/-- A key that `find` does not locate is absent from the element list. -/
theorem not_mem_of_hmFind_none {hashFn : Nat → Nat} {m : HMap}
    (hwf : HWf hashFn m) {k : Nat} (hf : hmFind hashFn m k = none) :
    k ∉ m.entries.map Prod.fst := by
  intro hkm
  rw [hmFind_eq hwf k] at hf
  obtain ⟨e, he, hek⟩ := List.mem_map.mp hkm
  exact absurd (by simpa using hek) (List.find?_eq_none.mp hf e he)

/-- Insertion preserves well-formedness. -/
theorem hwf_hmInsert {hashFn : Nat → Nat} {m : HMap} (hwf : HWf hashFn m) (k v : Nat) :
    HWf hashFn (hmInsert hashFn m k v).1 := by
  unfold hmInsert
  cases hf : hmFind hashFn m k with
  | some it => exact hwf
  | none =>
    have hkfresh : k ∉ m.entries.map Prod.fst := not_mem_of_hmFind_none hwf hf
    obtain ⟨hpos, hplace, hperm, hnodup⟩ := hwf
    obtain ⟨hpos2, hplace2, hperm2⟩ := bucketsInsert_wf hpos hplace hperm k
    refine ⟨hpos2, hplace2, ?_, ?_⟩
    · simpa using hperm2
    · simp only [List.map_append, List.map_cons, List.map_nil]
      refine List.Nodup.append hnodup (List.nodup_singleton k) ?_
      intro a ha hb
      have hak : a = k := by simpa using hb
      exact hkfresh (hak ▸ ha)

/-- After inserting a fresh key, `find` locates exactly the new entry. -/
theorem hmFind_hmInsert_fresh {hashFn : Nat → Nat} {m : HMap}
    (hwf : HWf hashFn m) {k : Nat} (hf : hmFind hashFn m k = none) (v : Nat) :
    hmFind hashFn (hmInsert hashFn m k v).1 k = some (k, v) := by
  have hwf2 := hwf_hmInsert hwf k v
  rw [hmFind_eq hwf2 k]
  have hent : (hmInsert hashFn m k v).1.entries = m.entries ++ [(k, v)] := by
    unfold hmInsert
    rw [hf]
  have hfl : m.entries.find? (fun e => e.1 == k) = none := by
    rw [← hmFind_eq hwf k]
    exact hf
  rw [hent, List.find?_append, hfl]
  simp

theorem assocSet_map_fst (l : List (Nat × Nat)) (k v : Nat) :
    (assocSet l k v).map Prod.fst = l.map Prod.fst := by
  induction l with
  | nil => rfl
  | cons e r ih => by_cases he : e.1 == k <;> simp [assocSet, he, ih]

/-- Assignment through a found iterator preserves well-formedness (keys and
buckets are untouched). -/
theorem hwf_assocSet {hashFn : Nat → Nat} {m : HMap} (hwf : HWf hashFn m) (k v : Nat) :
    HWf hashFn (⟨assocSet m.entries k v, m.buckets⟩ : HMap) := by
  obtain ⟨hpos, hplace, hperm, hnodup⟩ := hwf
  refine ⟨hpos, hplace, ?_, ?_⟩
  · show m.buckets.flatten.Perm ((assocSet m.entries k v).map Prod.fst)
    rw [assocSet_map_fst]
    exact hperm
  · show ((assocSet m.entries k v).map Prod.fst).Nodup
    rw [assocSet_map_fst]
    exact hnodup

theorem assocSet_find? {l : List (Nat × Nat)} {k : Nat} {e : Nat × Nat}
    (h : l.find? (fun e2 => e2.1 == k) = some e) (v : Nat) :
    (assocSet l k v).find? (fun e2 => e2.1 == k) = some (e.1, v) := by
  induction l with
  | nil => simp at h
  | cons x r ih =>
    by_cases hx : x.1 == k
    · rw [@List.find?_cons_of_pos _ (fun e2 => e2.1 == k) x r hx] at h
      injection h with h
      subst h
      unfold assocSet
      rw [if_pos hx]
      exact @List.find?_cons_of_pos _ (fun e2 => e2.1 == k) (x.1, v) r (by simpa using hx)
    · rw [@List.find?_cons_of_neg _ (fun e2 => e2.1 == k) x r hx] at h
      unfold assocSet
      rw [if_neg hx, @List.find?_cons_of_neg _ (fun e2 => e2.1 == k) x (assocSet r k v) hx]
      exact ih h

/-- On a unique element list, erasing the first node with a key removes
every node with that key. -/
theorem removeFirstKey_eq_filter : ∀ (l : List (Nat × Nat)) (k : Nat),
    (l.map Prod.fst).Nodup →
    removeFirstKey l k = l.filter (fun e => !(e.1 == k)) := by
  intro l
  induction l with
  | nil => intro k _; rfl
  | cons e r ih =>
    intro k hnd
    have hnd2 : (r.map Prod.fst).Nodup := (by simpa using hnd : _ ∧ _).2
    have hhead : e.1 ∉ r.map Prod.fst := by
      intro hmem
      exact absurd hmem (by simpa using hnd : _ ∧ _).1
    unfold removeFirstKey
    by_cases he : e.1 == k
    · have hek : e.1 = k := by simpa using he
      rw [if_pos he, List.filter_cons_of_neg (by simpa using he)]
      symm
      rw [List.filter_eq_self]
      intro a ha
      have hane : a.1 ≠ k := by
        intro hak
        exact hhead (hek ▸ hak ▸ List.mem_map_of_mem Prod.fst ha)
      simpa using hane
    · rw [if_neg he, List.filter_cons_of_pos (by simpa using he), ih k hnd2]

/-! ## Claims about the container layer -/

/-- C1 (amended): on any well-formed unique hashed map, the second of two
inserts of the same key is a complete no-op — the state is unchanged, the
returned flag is `false`, and the returned position is the one `find`
locates; when the key was absent beforehand, `find` afterwards yields the
first-written value `v`; `insert_or_assign`, by contrast, overwrites. -/
theorem c1_unique_insert_first_write (hashFn : Nat → Nat) (m : HMap) (k v v2 : Nat)
    (hwf : HWf hashFn m) :
    (hmInsert hashFn (hmInsert hashFn m k v).1 k v2).1 = (hmInsert hashFn m k v).1
    ∧ (hmInsert hashFn (hmInsert hashFn m k v).1 k v2).2.2 = false
    ∧ (hmInsert hashFn (hmInsert hashFn m k v).1 k v2).2.1
        = hmFind hashFn (hmInsert hashFn m k v).1 k
    ∧ (hmFind hashFn m k = none →
        hmFind hashFn (hmInsert hashFn (hmInsert hashFn m k v).1 k v2).1 k = some (k, v))
    ∧ (hmFind hashFn (hmInsertOrAssign hashFn (hmInsert hashFn m k v).1 k v2).1 k
        = some (k, v2)) := by
  have hwf1 : HWf hashFn (hmInsert hashFn m k v).1 := hwf_hmInsert hwf k v
  set m1 : HMap := (hmInsert hashFn m k v).1 with hm1
  have hsome : ∃ e, hmFind hashFn m1 k = some e := by
    cases hf : hmFind hashFn m k with
    | some it =>
      refine ⟨it, ?_⟩
      have hm1m : m1 = m := by
        rw [hm1]
        unfold hmInsert
        rw [hf]
      rw [hm1m, hf]
    | none => exact ⟨(k, v), hm1 ▸ hmFind_hmInsert_fresh hwf hf v⟩
  obtain ⟨e, he⟩ := hsome
  have hins2 : hmInsert hashFn m1 k v2 = (m1, (some e, false)) := by
    unfold hmInsert
    rw [he]
  refine ⟨by rw [hins2], by rw [hins2], by rw [hins2, he], ?_, ?_⟩
  · intro hf0
    rw [hins2]
    show hmFind hashFn m1 k = some (k, v)
    rw [hm1]
    exact hmFind_hmInsert_fresh hwf hf0 v
  · have hassign : hmInsertOrAssign hashFn m1 k v2
        = (⟨assocSet m1.entries k v2, m1.buckets⟩, (some (k, v2), false)) := by
      unfold hmInsertOrAssign
      rw [he]
    rw [hassign]
    have hwfa := hwf_assocSet hwf1 k v2
    have hfind1 : m1.entries.find? (fun e2 => e2.1 == k) = some e := by
      rw [← hmFind_eq hwf1 k]
      exact he
    have he1 : e.1 = k := by
      have := List.find?_some hfind1
      simpa using this
    show hmFind hashFn (⟨assocSet m1.entries k v2, m1.buckets⟩ : HMap) k = some (k, v2)
    rw [hmFind_eq hwfa k]
    show (assocSet m1.entries k v2).find? (fun e2 => e2.1 == k) = some (k, v2)
    rw [assocSet_find? hfind1 v2, he1]

/-- Witness for C1: the amended statement applied to a concrete well-formed
map. -/
theorem c1_unique_insert_first_write_witness :
    (hmInsert (fun x => x) (hmInsert (fun x => x) (⟨[], [[], []]⟩ : HMap) 5 7).1 5 9).1
      = (hmInsert (fun x => x) (⟨[], [[], []]⟩ : HMap) 5 7).1
    ∧ (hmInsert (fun x => x) (hmInsert (fun x => x) (⟨[], [[], []]⟩ : HMap) 5 7).1 5 9).2.2
      = false := by
  have h := c1_unique_insert_first_write (fun x => x) ⟨[], [[], []]⟩ 5 7 9 (by decide)
  exact ⟨h.1, h.2.1⟩

/-- C1, counterexample to the claim as stated: on a map that already holds
key `0` with value `99`, executing `insert(0, 1); insert(0, 2)` leaves
`find(0)` at the pre-existing value `99`, not at the claimed `v = 1`. -/
theorem c1_claim_counterexample :
    hmFind (fun x => x)
      (hmInsert (fun x => x)
        (hmInsert (fun x => x)
          (hmInsert (fun x => x) (⟨[], [[], []]⟩ : HMap) 0 99).1 0 1).1 0 2).1 0
      = some (0, 99)
    ∧ ¬ hmFind (fun x => x)
      (hmInsert (fun x => x)
        (hmInsert (fun x => x)
          (hmInsert (fun x => x) (⟨[], [[], []]⟩ : HMap) 0 99).1 0 1).1 0 2).1 0
      = some (0, 1) := by
  decide

/-- C4 (amended): `erase(key)` removes at most one entry in every map
container.  On a well-formed unique map it removes exactly the matching
entry and returns the number removed (the key's multiplicity, `0` or `1`);
on a multi map holding two entries with the same key it also removes only
the first one and returns `1`, not the number of matching entries. -/
theorem c4_erase_by_key (hashFn : Nat → Nat) (m : HMap) (k : Nat) (hwf : HWf hashFn m) :
    ((hmErase hashFn m k).2 = (m.entries.map Prod.fst).count k
      ∧ (hmErase hashFn m k).1.entries = m.entries.filter (fun e => !(e.1 == k)))
    ∧ (mmKeyCount (mmInsert (fun x => x) (mmInsert (fun x => x) ⟨[], [[], []], 0⟩ 0 1) 0 2) 0 = 2
      ∧ (mmErase (fun x => x)
          (mmInsert (fun x => x) (mmInsert (fun x => x) ⟨[], [[], []], 0⟩ 0 1) 0 2) 0).2 = 1
      ∧ mmKeyCount (mmErase (fun x => x)
          (mmInsert (fun x => x) (mmInsert (fun x => x) ⟨[], [[], []], 0⟩ 0 1) 0 2) 0).1 0 = 1) := by
  refine ⟨?_, by decide, by decide, by decide⟩
  obtain ⟨hpos, hplace, hperm, hnodup⟩ := hwf
  unfold hmErase
  cases hf : hmFind hashFn m k with
  | none =>
    have hk : k ∉ m.entries.map Prod.fst :=
      not_mem_of_hmFind_none ⟨hpos, hplace, hperm, hnodup⟩ hf
    constructor
    · exact (List.count_eq_zero.mpr hk).symm
    · show m.entries = m.entries.filter (fun e => !(e.1 == k))
      symm
      rw [List.filter_eq_self]
      intro e he2
      have : e.1 ≠ k := fun hek => hk (hek ▸ List.mem_map_of_mem Prod.fst he2)
      simpa using this
  | some it =>
    have hfind : m.entries.find? (fun e => e.1 == k) = some it := by
      rw [← hmFind_eq ⟨hpos, hplace, hperm, hnodup⟩ k]
      exact hf
    have hit1 : it.1 = k := by
      have := List.find?_some hfind
      simpa using this
    have hmem : k ∈ m.entries.map Prod.fst :=
      hit1 ▸ List.mem_map_of_mem Prod.fst (List.mem_of_find?_eq_some hfind)
    constructor
    · exact (List.count_eq_one_of_mem hnodup hmem).symm
    · show removeFirstKey m.entries it.1 = _
      rw [hit1, removeFirstKey_eq_filter m.entries k hnodup]

/-- Witness for C4: the unique-map half applied to a concrete well-formed
map holding key `3`. -/
theorem c4_erase_by_key_witness :
    (hmErase (fun x => x) (⟨[(3, 4)], [[], [], [], [3]]⟩ : HMap) 3).2
      = (((⟨[(3, 4)], [[], [], [], [3]]⟩ : HMap)).entries.map Prod.fst).count 3 :=
  (c4_erase_by_key (fun x => x) ⟨[(3, 4)], [[], [], [], [3]]⟩ 3 (by decide)).1.1

/-- C4, counterexample to the claim as stated: a hashed multi map holding
two entries with key `0` — `erase(0)` returns `1` (not the number of
matching entries, `2`) and leaves one matching entry behind. -/
theorem c4_claim_counterexample :
    (mmErase (fun x => x)
      (mmInsert (fun x => x) (mmInsert (fun x => x) ⟨[], [[], []], 0⟩ 0 1) 0 2) 0).2 = 1
    ∧ ¬ (mmErase (fun x => x)
      (mmInsert (fun x => x) (mmInsert (fun x => x) ⟨[], [[], []], 0⟩ 0 1) 0 2) 0).2 = 2
    ∧ ¬ (mmErase (fun x => x)
      (mmInsert (fun x => x) (mmInsert (fun x => x) ⟨[], [[], []], 0⟩ 0 1) 0 2) 0).1.entries.length
      = 0 := by
  decide

/-- C6: after any insertion into a well-formed hashed map whose load factor
is at most the default `max_load_factor` of `1.0`, the load factor is still
at most `1.0` — the engine rehashes beforehand when the insertion would
push `size` above `bucket_count`. -/
theorem c6_load_factor_invariant (hashFn : Nat → Nat) (m : HMap) (k v : Nat)
    (hwf : HWf hashFn m) (hlf : m.entries.length ≤ m.buckets.length) :
    (hmInsert hashFn m k v).1.entries.length ≤ (hmInsert hashFn m k v).1.buckets.length := by
  obtain ⟨hpos, hplace, hperm, hnodup⟩ := hwf
  have hsync : m.buckets.flatten.length = m.entries.length := by
    have := hperm.length_eq
    simpa using this
  unfold hmInsert
  cases hf : hmFind hashFn m k with
  | some it => exact hlf
  | none =>
    show (m.entries ++ [(k, v)]).length ≤ (bucketsInsert hashFn m.buckets k).length
    rw [List.length_append]
    unfold bucketsInsert bucketsPlace
    rw [List.length_set]
    by_cases hgrow : m.buckets.length < m.buckets.flatten.length + 1
    · rw [if_pos hgrow, length_bucketsRehash]
      simp only [List.length_cons, List.length_nil]
      omega
    · rw [if_neg hgrow]
      simp only [List.length_cons, List.length_nil]
      omega

/-- Witness for C6: the spec's scenario — keys `"a","b","c"` (encoded
`1, 2, 3` with values `1, 2, 3`) inserted into a unique map with 2 buckets.
The third insert triggers the rehash: `bucket_count` grows to `6 ≥ 3`
before the insert completes, the load factor stays at most `1.0` (the
theorem applied at the scenario), and `find("b")` still returns mapped
value `2`. -/
theorem c6_load_factor_invariant_witness :
    ((hmInsert (fun x => x)
        (hmInsert (fun x => x) (hmInsert (fun x => x) (⟨[], [[], []]⟩ : HMap) 1 1).1 2 2).1
        3 3).1.entries.length
      ≤ (hmInsert (fun x => x)
        (hmInsert (fun x => x) (hmInsert (fun x => x) (⟨[], [[], []]⟩ : HMap) 1 1).1 2 2).1
        3 3).1.buckets.length)
    ∧ (hmInsert (fun x => x)
        (hmInsert (fun x => x) (hmInsert (fun x => x) (⟨[], [[], []]⟩ : HMap) 1 1).1 2 2).1
        3 3).1.buckets.length = 6
    ∧ 3 ≤ (hmInsert (fun x => x)
        (hmInsert (fun x => x) (hmInsert (fun x => x) (⟨[], [[], []]⟩ : HMap) 1 1).1 2 2).1
        3 3).1.buckets.length
    ∧ hmFind (fun x => x)
        (hmInsert (fun x => x)
          (hmInsert (fun x => x) (hmInsert (fun x => x) (⟨[], [[], []]⟩ : HMap) 1 1).1 2 2).1
          3 3).1 2 = some (2, 2) :=
  ⟨c6_load_factor_invariant (fun x => x)
    (hmInsert (fun x => x) (hmInsert (fun x => x) (⟨[], [[], []]⟩ : HMap) 1 1).1 2 2).1
    3 3 (by decide) (by decide), by decide, by decide, by decide⟩

/-- C10: the zero-argument `max_load_factor()` returns the current ratio
`size() / bucket_count()`, which varies with insertions (0, then 1/2, then
1, then back to 1/2 after the growth rehash) — not a stored
maximum-load-factor constant such as 1.0. -/
theorem c10_max_load_factor_current :
    hmMaxLoadFactor (⟨[], [[], []]⟩ : HMap) = 0
    ∧ hmMaxLoadFactor (hmInsert (fun x => x) (⟨[], [[], []]⟩ : HMap) 1 1).1 = 1 / 2
    ∧ hmMaxLoadFactor
        (hmInsert (fun x => x) (hmInsert (fun x => x) (⟨[], [[], []]⟩ : HMap) 1 1).1 2 2).1 = 1
    ∧ hmMaxLoadFactor
        (hmInsert (fun x => x)
          (hmInsert (fun x => x) (hmInsert (fun x => x) (⟨[], [[], []]⟩ : HMap) 1 1).1 2 2).1
          3 3).1 = 1 / 2
    ∧ hmMaxLoadFactor (hmInsert (fun x => x) (⟨[], [[], []]⟩ : HMap) 1 1).1 ≠ 1 := by
  have h1 : (hmInsert (fun x => x) (⟨[], [[], []]⟩ : HMap) 1 1).1
      = ⟨[(1, 1)], [[], [1]]⟩ := by decide
  have h2 : (hmInsert (fun x => x) (hmInsert (fun x => x) (⟨[], [[], []]⟩ : HMap) 1 1).1 2 2).1
      = ⟨[(1, 1), (2, 2)], [[2], [1]]⟩ := by decide
  have h3 : (hmInsert (fun x => x)
      (hmInsert (fun x => x) (hmInsert (fun x => x) (⟨[], [[], []]⟩ : HMap) 1 1).1 2 2).1
      3 3).1 = ⟨[(1, 1), (2, 2), (3, 3)], [[], [1], [2], [3], [], []]⟩ := by decide
  rw [h3, h2, h1]
  unfold hmMaxLoadFactor
  norm_num

theorem npLoop_step_down {l : List Int} {x : Nat} (hx : 1 ≤ x)
    (h : ¬ l.getD x 0 < l.getD (x + 1) 0) : npLoop l (x + 1) = npLoop l x := by
  obtain ⟨w, rfl⟩ : ∃ w, x = w + 1 := ⟨x - 1, by omega⟩
  conv_lhs => rw [npLoop]
  rw [if_neg h, if_neg (by omega : ¬ w + 1 = 0)]

theorem npLoop_false {l : List Int} :
    ∀ x, (∀ i ≤ x, ¬ l.getD i 0 < l.getD (i + 1) 0) → npLoop l (x + 1) = (l.reverse, false) := by
  intro x
  induction x with
  | zero =>
    intro h
    conv_lhs => rw [npLoop]
    rw [if_neg (h 0 (le_refl 0)), if_pos rfl]
  | succ x ih =>
    intro h
    rw [npLoop_step_down (by omega) (h (x + 1) (le_refl _))]
    exact ih (fun i hi => h i (by omega))

theorem npLoop_flag_true {l : List Int} :
    ∀ x, (∃ i, i ≤ x ∧ l.getD i 0 < l.getD (i + 1) 0) → (npLoop l (x + 1)).2 = true := by
  intro x
  induction x with
  | zero =>
    intro ⟨i, hi, hlt⟩
    have hi0 : i = 0 := by omega
    subst hi0
    conv_lhs => rw [npLoop]
    rw [if_pos hlt]
  | succ x ih =>
    intro ⟨i, hi, hlt⟩
    by_cases hx : l.getD (x + 1) 0 < l.getD (x + 2) 0
    · conv_lhs => rw [npLoop]
      rw [if_pos hx]
    · rw [npLoop_step_down (by omega) hx]
      have hix : i ≤ x := by
        rcases Nat.lt_or_ge i (x + 1) with h1 | h1
        · omega
        · exfalso
          have hieq : i = x + 1 := by omega
          subst hieq
          exact hx hlt
      exact ih ⟨i, hix, hlt⟩

/-- On a strictly descending range, `next_permutation` reverses the whole
range and reports `false`. -/
theorem np_desc {l : List Int} (h : StrictDesc l) :
    next_permutation l = (l.reverse, false) := by
  unfold next_permutation
  by_cases hlen : l.length ≤ 1
  · rw [if_pos hlen]
    rcases l with _ | ⟨a, _ | ⟨b, r⟩⟩
    · rfl
    · rfl
    · simp at hlen
  · rw [if_neg hlen]
    have h2 : l.length - 1 = (l.length - 2) + 1 := by omega
    rw [h2]
    apply npLoop_false
    intro i hi hlt
    have hi2 : i + 1 < l.length := by omega
    exact absurd hlt (not_lt.mpr (le_of_lt (h i hi2)))

/-- On duplicate-free contents the flag is `false` exactly when the range
is strictly descending. -/
theorem np_flag_false_iff {l : List Int} (hnd : l.Nodup) :
    (next_permutation l).2 = false ↔ StrictDesc l := by
  constructor
  · intro hf
    intro i hi
    by_contra hnot
    push_neg at hnot
    have h1 : i < l.length := by omega
    have hne : l.getD (i + 1) 0 ≠ l.getD i 0 := by
      rw [List.getD_eq_getElem _ _ hi, List.getD_eq_getElem _ _ h1]
      intro heq
      have := (hnd.getElem_inj_iff).mp heq
      omega
    have hlt : l.getD i 0 < l.getD (i + 1) 0 := by
      rcases lt_trichotomy (l.getD i 0) (l.getD (i + 1) 0) with hc | hc | hc
      · exact hc
      · exact absurd hc.symm hne
      · exact absurd hc (not_lt.mpr hnot)
    have hlen : ¬ l.length ≤ 1 := by omega
    unfold next_permutation at hf
    rw [if_neg hlen] at hf
    have h2 : l.length - 1 = (l.length - 2) + 1 := by omega
    rw [h2] at hf
    rw [npLoop_flag_true (l.length - 2) ⟨i, by omega, hlt⟩] at hf
    cases hf
  · intro h
    rw [np_desc h]

theorem npLoop_pivot {l : List Int} {x : Nat} (h : l.getD x 0 < l.getD (x + 1) 0) :
    npLoop l (x + 1) =
      ((listSwapN l x (npFindY l (l.getD x 0) (l.length - 1))).take (x + 1)
        ++ ((listSwapN l x (npFindY l (l.getD x 0) (l.length - 1))).drop (x + 1)).reverse,
       true) := by
  conv_lhs => rw [npLoop]
  rw [if_pos h]

theorem npFindY_shift (c p : Int) (rest : List Int) :
    ∀ y, (∃ i, i ≤ y ∧ p < rest.getD i 0) →
      npFindY (c :: rest) p (y + 1) = npFindY rest p y + 1 := by
  intro y
  induction y with
  | zero =>
    intro ⟨i, hi, hp⟩
    have hi0 : i = 0 := by omega
    subst hi0
    conv_lhs => rw [npFindY]
    rw [List.getD_cons_succ, if_pos hp]
    rfl
  | succ y ih =>
    intro ⟨i, hi, hp⟩
    conv_lhs => rw [npFindY]
    conv_rhs => rw [npFindY]
    rw [List.getD_cons_succ]
    by_cases hc : p < rest.getD (y + 1) 0
    · rw [if_pos hc, if_pos hc]
    · rw [if_neg hc, if_neg hc]
      apply ih
      refine ⟨i, ?_, hp⟩
      rcases Nat.lt_or_ge i (y + 1) with h1 | h1
      · omega
      · exfalso
        have hieq : i = y + 1 := by omega
        subst hieq
        exact hc hp

theorem listSwapN_cons (c : Int) (l : List Int) (i j : Nat) :
    listSwapN (c :: l) (i + 1) (j + 1) = c :: listSwapN l i j := by
  unfold listSwapN
  simp

theorem npLoop_pivot_shift {c : Int} {rest : List Int} {q : Nat}
    (hq : rest.getD q 0 < rest.getD (q + 1) 0) (hlen : q + 2 ≤ rest.length) :
    npLoop (c :: rest) (q + 2) = (c :: (npLoop rest (q + 1)).1, true) := by
  have hq2 : (c :: rest).getD (q + 1) 0 < (c :: rest).getD (q + 2) 0 := by
    simpa using hq
  rw [npLoop_pivot hq2, npLoop_pivot hq]
  have hrl : (c :: rest).length - 1 = (rest.length - 1) + 1 := by
    simp
    omega
  have hfy : npFindY (c :: rest) ((c :: rest).getD (q + 1) 0) ((c :: rest).length - 1)
      = npFindY rest (rest.getD q 0) (rest.length - 1) + 1 := by
    rw [hrl, List.getD_cons_succ]
    exact npFindY_shift c _ rest (rest.length - 1) ⟨q + 1, by omega, hq⟩
  rw [hfy, listSwapN_cons, List.take_succ_cons, List.drop_succ_cons, List.cons_append]

theorem npLoop_shift {c : Int} {rest : List Int} :
    ∀ x, 1 ≤ x → x + 1 ≤ rest.length →
      (∃ i, i < x ∧ rest.getD i 0 < rest.getD (i + 1) 0) →
      npLoop (c :: rest) (x + 1) = (c :: (npLoop rest x).1, (npLoop rest x).2) := by
  intro x
  induction x with
  | zero => omega
  | succ x ih =>
    intro _ hlen hex
    by_cases hc : rest.getD x 0 < rest.getD (x + 1) 0
    · rw [npLoop_pivot_shift hc (by omega), npLoop_pivot hc]
    · have hx1 : 1 ≤ x := by
        by_contra h0
        have hx0 : x = 0 := by omega
        subst hx0
        obtain ⟨i, hi, hp⟩ := hex
        have hi0 : i = 0 := by omega
        subst hi0
        exact hc hp
      have hcc : ¬ (c :: rest).getD (x + 1) 0 < (c :: rest).getD (x + 2) 0 := by
        simpa using hc
      rw [npLoop_step_down (by omega) hcc, npLoop_step_down hx1 hc]
      apply ih hx1 (by omega)
      obtain ⟨i, hi, hp⟩ := hex
      refine ⟨i, ?_, hp⟩
      rcases Nat.lt_or_ge i x with h1 | h1
      · exact h1
      · exfalso
        have hieq : i = x := by omega
        subst hieq
        exact hc hp

/-- Lifting `next_permutation` over a fixed head: when the tail still has a
lexicographic successor, the call acts entirely inside the tail. -/
theorem np_cons_lift {c : Int} {rest : List Int} (hlen : 2 ≤ rest.length)
    (hex : ∃ i, i + 1 < rest.length ∧ rest.getD i 0 < rest.getD (i + 1) 0) :
    next_permutation (c :: rest) = (c :: (next_permutation rest).1, true)
    ∧ (next_permutation rest).2 = true := by
  obtain ⟨i0, hi0, hp0⟩ := hex
  have hflag : (next_permutation rest).2 = true := by
    unfold next_permutation
    rw [if_neg (by omega)]
    rw [show rest.length - 1 = (rest.length - 2) + 1 from by omega]
    exact npLoop_flag_true (rest.length - 2) ⟨i0, by omega, hp0⟩
  refine ⟨?_, hflag⟩
  have hmain : npLoop (c :: rest) (rest.length - 1 + 1)
      = (c :: (npLoop rest (rest.length - 1)).1, (npLoop rest (rest.length - 1)).2) :=
    npLoop_shift (rest.length - 1) (by omega) (by omega) ⟨i0, by omega, hp0⟩
  have hflag2 : (npLoop rest (rest.length - 1)).2 = true := by
    have := hflag
    unfold next_permutation at this
    rw [if_neg (by omega)] at this
    exact this
  unfold next_permutation
  rw [if_neg (by simp only [List.length_cons]; omega), if_neg (by omega)]
  rw [show (c :: rest).length - 1 = rest.length - 1 + 1 from by simp only [List.length_cons]; omega]
  rw [hmain, hflag2]

theorem strictDesc_getD_lt {l : List Int} (h : StrictDesc l) :
    ∀ j i, i < j → j < l.length → l.getD j 0 < l.getD i 0 := by
  intro j
  induction j with
  | zero => omega
  | succ j ih =>
    intro i hij hjl
    rcases Nat.lt_or_ge i j with h1 | h1
    · exact lt_trans (h j hjl) (ih i h1 (by omega))
    · have hieq : i = j := by omega
      subst hieq
      exact h i hjl

theorem strictDesc_pairwise {l : List Int} (h : StrictDesc l) :
    l.Pairwise (fun a b => b < a) := by
  rw [List.pairwise_iff_getElem]
  intro i j hi hj hij
  have := strictDesc_getD_lt h j i hij hj
  rwa [List.getD_eq_getElem _ _ hj, List.getD_eq_getElem _ _ hi] at this

theorem getD_set_self {l : List Int} {i : Nat} (h : i < l.length) (a : Int) :
    (l.set i a).getD i 0 = a := by
  rw [List.getD_eq_getElem _ _ (by simpa using h)]
  simp

theorem getD_set_ne {l : List Int} {i j : Nat} (h : i ≠ j) (a : Int) :
    (l.set i a).getD j 0 = l.getD j 0 := by
  by_cases hj : j < l.length
  · rw [List.getD_eq_getElem _ _ (by simpa using hj), List.getD_eq_getElem _ _ hj,
      List.getElem_set_ne h]
  · rw [List.getD_eq_default _ _ (by simpa using le_of_not_lt hj),
      List.getD_eq_default _ _ (le_of_not_lt hj)]

theorem listSwapN_cons_zero (c : Int) (l : List Int) (j : Nat) :
    listSwapN (c :: l) 0 (j + 1) = l.getD j 0 :: l.set j c := by
  unfold listSwapN
  simp

theorem npLoop_all_down {l : List Int} :
    ∀ x, (∀ i, 1 ≤ i → i ≤ x → ¬ l.getD i 0 < l.getD (i + 1) 0) →
      npLoop l (x + 1) = npLoop l 1 := by
  intro x
  induction x with
  | zero => intro _; rfl
  | succ x ih =>
    intro h
    rw [npLoop_step_down (by omega) (h (x + 1) (by omega) (le_refl _))]
    exact ih (fun i h1 h2 => h i h1 (by omega))

theorem npFindY_desc {c : Int} {rest : List Int} {m0 : Nat}
    (hle : ∀ i, i ≤ m0 → c < rest.getD i 0)
    (hgt : ∀ i, m0 < i → i < rest.length → ¬ c < rest.getD i 0) :
    ∀ d s, s = m0 + 1 + d → s ≤ rest.length → npFindY (c :: rest) c s = m0 + 1 := by
  intro d
  induction d with
  | zero =>
    intro s hs _
    subst hs
    rw [show m0 + 1 + 0 = m0 + 1 from rfl]
    conv_lhs => rw [npFindY]
    rw [List.getD_cons_succ, if_pos (hle m0 (le_refl _))]
  | succ d ih =>
    intro s hs hsl
    subst hs
    rw [show m0 + 1 + (d + 1) = (m0 + 1 + d) + 1 from by omega]
    conv_lhs => rw [npFindY]
    rw [List.getD_cons_succ, if_neg (hgt (m0 + 1 + d) (by omega) (by omega))]
    exact ih (m0 + 1 + d) rfl (by omega)

/-- The rollover step: when the tail is strictly descending but the head is
smaller than some tail element, `next_permutation` promotes the smallest
greater tail element to the head and leaves a strictly ascending tail,
returning `true`. -/
theorem np_roll {c : Int} {rest : List Int} (hd : StrictDesc rest)
    (hne : rest ≠ []) (hc : c < rest.getD 0 0) (hcm : c ∉ rest) :
    ∃ m0, m0 < rest.length
      ∧ next_permutation (c :: rest) = (rest.getD m0 0 :: (rest.set m0 c).reverse, true)
      ∧ c < rest.getD m0 0
      ∧ (∀ z ∈ rest, c < z → rest.getD m0 0 ≤ z)
      ∧ ((rest.set m0 c).reverse).Sorted (· < ·)
      ∧ (rest.getD m0 0 :: (rest.set m0 c).reverse).Perm (c :: rest) := by
  have hlen : 1 ≤ rest.length := List.length_pos.mpr hne
  classical
  set P : Nat → Prop := fun i => c < rest.getD i 0 with hP
  have hP0 : P 0 := hc
  set m0 := Nat.findGreatest P (rest.length - 1) with hm0def
  have hm0lt : m0 < rest.length := lt_of_le_of_lt (Nat.findGreatest_le _) (by omega)
  have hPm0 : P m0 := Nat.findGreatest_spec (Nat.zero_le _) hP0
  have hle : ∀ i, i ≤ m0 → c < rest.getD i 0 := by
    intro i hi
    rcases Nat.lt_or_ge i m0 with h1 | h1
    · exact lt_trans hPm0 (strictDesc_getD_lt hd m0 i h1 hm0lt)
    · have hieq : i = m0 := by omega
      subst hieq
      exact hPm0
  have hgtS : ∀ i, m0 < i → i < rest.length → rest.getD i 0 < c := by
    intro i h1 h2
    have hnp : ¬ P i := Nat.findGreatest_is_greatest h1 (by omega)
    have hmem : rest.getD i 0 ∈ rest := by
      rw [List.getD_eq_getElem _ _ h2]
      exact List.getElem_mem h2
    have hne2 : rest.getD i 0 ≠ c := fun h => hcm (h ▸ hmem)
    rcases lt_trichotomy (rest.getD i 0) c with hlt | heq | hgt2
    · exact hlt
    · exact absurd heq hne2
    · exact absurd hgt2 hnp
  have hgt : ∀ i, m0 < i → i < rest.length → ¬ c < rest.getD i 0 :=
    fun i h1 h2 => not_lt.mpr (le_of_lt (hgtS i h1 h2))
  -- evaluate the call
  have hstep : next_permutation (c :: rest)
      = (rest.getD m0 0 :: (rest.set m0 c).reverse, true) := by
    unfold next_permutation
    rw [if_neg (by simp only [List.length_cons]; omega)]
    rw [show (c :: rest).length - 1 = (rest.length - 1) + 1 from by
      simp only [List.length_cons]; omega]
    rw [npLoop_all_down (rest.length - 1) ?hdown]
    case hdown =>
      intro i h1 h2
      have hi1 : i - 1 + 1 = i := by omega
      have hpair : rest.getD i 0 < rest.getD (i - 1) 0 := by
        have := hd (i - 1) (by omega)
        rwa [hi1] at this
      rw [show i = (i - 1) + 1 from by omega, List.getD_cons_succ, List.getD_cons_succ]
      rw [show i - 1 + 1 = (i - 1) + 1 from rfl]
      intro hcon
      rw [hi1] at hcon
      exact absurd hcon (not_lt.mpr (le_of_lt hpair))
    · have hc0 : (c :: rest).getD 0 0 < (c :: rest).getD (0 + 1) 0 := by
        simpa using hc
      rw [npLoop_pivot hc0]
      have hcr : (c :: rest).getD 0 0 = c := rfl
      have hlr : (c :: rest).length - 1 = rest.length := by
        simp only [List.length_cons]
        omega
      rw [hcr, hlr]
      have hfy : npFindY (c :: rest) c rest.length = m0 + 1 :=
        npFindY_desc hle hgt (rest.length - (m0 + 1)) rest.length (by omega) (le_refl _)
      rw [hfy, listSwapN_cons_zero]
      simp
  refine ⟨m0, hm0lt, hstep, hle m0 (le_refl _), ?_, ?_, ?_⟩
  · -- minimality
    intro z hz hcz
    obtain ⟨i, hi, hzi⟩ := List.getElem_of_mem hz
    have hzD : rest.getD i 0 = z := by
      rw [List.getD_eq_getElem _ _ hi, hzi]
    rcases Nat.lt_or_ge m0 i with h1 | h1
    · exfalso
      have := hgtS i h1 hi
      rw [hzD] at this
      omega
    · rcases Nat.lt_or_ge i m0 with h2 | h2
      · have := strictDesc_getD_lt hd m0 i h2 hm0lt
        rw [hzD] at this
        omega
      · have hieq : i = m0 := by omega
        subst hieq
        rw [hzD]
  · -- sortedness of the new tail
    have hsd : StrictDesc (rest.set m0 c) := by
      intro i hi
      rw [List.length_set] at hi
      by_cases h1 : i + 1 = m0
      · have hi_ne : i ≠ m0 := by omega
        rw [h1, getD_set_self hm0lt, getD_set_ne (Ne.symm hi_ne)]
        exact hle i (by omega)
      · by_cases h2 : i = m0
        · subst h2
          rw [getD_set_ne (by omega : m0 ≠ m0 + 1) c, getD_set_self hm0lt c]
          exact hgtS (m0 + 1) (by omega) hi
        · rw [getD_set_ne (fun h => h1 h.symm), getD_set_ne (fun h => h2 h.symm)]
          exact hd i hi
    show ((rest.set m0 c).reverse).Pairwise (· < ·)
    rw [List.pairwise_reverse]
    exact strictDesc_pairwise hsd
  · -- permutation
    have hsplit : rest.set m0 c = rest.take m0 ++ c :: rest.drop (m0 + 1) := by
      rw [List.set_eq_take_append_cons_drop, if_pos hm0lt]
    have hrest : rest = rest.take m0 ++ rest.getD m0 0 :: rest.drop (m0 + 1) := by
      conv_lhs => rw [← List.take_append_drop m0 rest]
      rw [List.drop_eq_getElem_cons hm0lt, List.getD_eq_getElem _ _ hm0lt]
    have p1 : (rest.set m0 c).Perm (c :: (rest.take m0 ++ rest.drop (m0 + 1))) := by
      rw [hsplit]
      exact List.perm_middle
    have p2 : rest.Perm (rest.getD m0 0 :: (rest.take m0 ++ rest.drop (m0 + 1))) := by
      conv_lhs => rw [hrest]
      exact List.perm_middle
    refine List.Perm.trans (List.Perm.cons _ ((List.reverse_perm _).trans p1)) ?_
    refine List.Perm.trans (List.Perm.swap _ _ _) ?_
    exact List.Perm.cons _ p2.symm

theorem npState_add (l : List Int) (a : Nat) :
    ∀ b, npState l (a + b) = npState (npState l a) b := by
  intro b
  induction b with
  | zero => rfl
  | succ b ih =>
    show (next_permutation (npState l (a + b))).1 = _
    rw [ih]
    rfl

theorem npStates_length (l : List Int) (n : Nat) : (npStates l n).length = n := by
  simp [npStates]

theorem npFlags_length (l : List Int) (n : Nat) : (npFlags l n).length = n := by
  simp [npFlags]

theorem npStates_succ (l : List Int) (n : Nat) :
    npStates l (n + 1) = npStates l n ++ [npState l (n + 1)] := by
  unfold npStates
  rw [List.range_succ, List.map_append]
  rfl

theorem npFlags_succ (l : List Int) (n : Nat) :
    npFlags l (n + 1) = npFlags l n ++ [(next_permutation (npState l n)).2] := by
  unfold npFlags
  rw [List.range_succ, List.map_append]
  rfl

theorem npStates_add (l : List Int) (a : Nat) :
    ∀ b, npStates l (a + b) = npStates l a ++ npStates (npState l a) b := by
  intro b
  induction b with
  | zero => simp [npStates]
  | succ b ih =>
    have h3 : npState l (a + b + 1) = npState (npState l a) (b + 1) := by
      rw [show a + b + 1 = a + (b + 1) by omega]
      exact npState_add l a (b + 1)
    rw [show a + (b + 1) = (a + b) + 1 by omega, npStates_succ, ih, npStates_succ,
      List.append_assoc, h3]

theorem npFlags_add (l : List Int) (a : Nat) :
    ∀ b, npFlags l (a + b) = npFlags l a ++ npFlags (npState l a) b := by
  intro b
  induction b with
  | zero => simp [npFlags]
  | succ b ih =>
    rw [show a + (b + 1) = (a + b) + 1 by omega, npFlags_succ, ih, npFlags_succ,
      List.append_assoc, npState_add l a b]

theorem npStates_getD (l : List Int) (n j : Nat) (hj : j < n) :
    (npStates l n).getD j [] = npState l (j + 1) := by
  unfold npStates
  rw [List.getD_eq_getElem _ _ (by simpa using hj)]
  rw [List.getElem_map, List.getElem_range]

theorem npFlags_getD (l : List Int) (n j : Nat) (hj : j < n) :
    (npFlags l n).getD j false = (next_permutation (npState l j)).2 := by
  unfold npFlags
  rw [List.getD_eq_getElem _ _ (by simpa using hj)]
  rw [List.getElem_map, List.getElem_range]

/-- Reading pointwise flag facts out of the `replicate … ++ [false]`
shape. -/
theorem flags_pointwise {l : List Int} {n : Nat} (hn : 1 ≤ n)
    (h : npFlags l n = List.replicate (n - 1) true ++ [false]) :
    (∀ j, j < n - 1 → (next_permutation (npState l j)).2 = true)
    ∧ (next_permutation (npState l (n - 1))).2 = false := by
  constructor
  · intro j hj
    have h1 : (npFlags l n).getD j false
        = (List.replicate (n - 1) true ++ [false]).getD j false := by rw [h]
    rw [npFlags_getD l n j (by omega)] at h1
    rw [h1]
    show (List.replicate (n - 1) true ++ [false]).getD j false = true
    rw [List.getD_eq_getElem _ _ (by simp; omega)]
    rw [List.getElem_append_left (by simpa using hj)]
    exact List.getElem_replicate _ _
  · have h1 : (npFlags l n).getD (n - 1) false
        = (List.replicate (n - 1) true ++ [false]).getD (n - 1) false := by rw [h]
    rw [npFlags_getD l n (n - 1) (by omega)] at h1
    rw [h1]
    show (List.replicate (n - 1) true ++ [false]).getD (n - 1) false = false
    rw [List.getD_eq_getElem _ _ (by simp)]
    rw [List.getElem_append_right (by simp)]
    simp

/-- Building the `replicate … ++ [false]` shape from pointwise facts. -/
theorem flags_build {l : List Int} {n : Nat} (hn : 1 ≤ n)
    (h1 : ∀ j, j < n - 1 → (next_permutation (npState l j)).2 = true)
    (h2 : (next_permutation (npState l (n - 1))).2 = false) :
    npFlags l n = List.replicate (n - 1) true ++ [false] := by
  apply List.ext_getElem
  · rw [npFlags_length]
    simp
    omega
  · intro j hjl hjr
    rw [npFlags_length] at hjl
    have hD := npFlags_getD l n j hjl
    rw [List.getD_eq_getElem _ _ (by rw [npFlags_length]; exact hjl)] at hD
    rw [hD]
    rcases Nat.lt_or_ge j (n - 1) with hc | hc
    · rw [List.getElem_append_left (by simpa using hc), List.getElem_replicate]
      exact h1 j hc
    · have hje : j = n - 1 := by omega
      subst hje
      rw [List.getElem_append_right (by simp)]
      simpa using h2

theorem strictDesc_of_short {l : List Int} (h : l.length ≤ 1) : StrictDesc l := by
  intro i hi
  omega

theorem exists_increase {l : List Int} (hnd : l.Nodup) (h : ¬ StrictDesc l) :
    ∃ i, i + 1 < l.length ∧ l.getD i 0 < l.getD (i + 1) 0 := by
  by_contra hno
  push_neg at hno
  apply h
  intro i hi
  have h1 := hno i hi
  have hlt : i < l.length := by omega
  have hne : l.getD (i + 1) 0 ≠ l.getD i 0 := by
    rw [List.getD_eq_getElem _ _ hi, List.getD_eq_getElem _ _ hlt]
    intro heq
    have := (hnd.getElem_inj_iff).mp heq
    omega
  exact lt_of_le_of_ne h1 hne

/-- While the tail still has successors, the whole-range run is the
head-cons lift of the tail run. -/
theorem block_lift {h : Int} {t : List Int} (hnd : (h :: t).Nodup) (M : Nat)
    (htstates : ∀ j, j ≤ M - 1 → (npState t j).Perm t)
    (htflags : ∀ j, j < M - 1 → (next_permutation (npState t j)).2 = true) :
    (∀ j, j ≤ M - 1 → npState (h :: t) j = h :: npState t j)
    ∧ (∀ j, j < M - 1 → (next_permutation (npState (h :: t) j)).2 = true) := by
  have htnd : t.Nodup := (List.nodup_cons.mp hnd).2
  have key : ∀ j, j < M - 1 →
      next_permutation (h :: npState t j)
        = (h :: (next_permutation (npState t j)).1, true) := by
    intro j hj
    have hτ : (next_permutation (npState t j)).2 = true := htflags j hj
    have hτnd : (npState t j).Nodup := ((htstates j (by omega)).nodup_iff).mpr htnd
    have hnotdesc : ¬ StrictDesc (npState t j) := by
      intro hdesc
      rw [(np_flag_false_iff hτnd).mpr hdesc] at hτ
      cases hτ
    have hlen2 : 2 ≤ (npState t j).length := by
      by_contra hlen
      exact hnotdesc (strictDesc_of_short (by omega))
    exact (np_cons_lift hlen2 (exists_increase hτnd hnotdesc)).1
  have hstates : ∀ j, j ≤ M - 1 → npState (h :: t) j = h :: npState t j := by
    intro j
    induction j with
    | zero => intro _; rfl
    | succ j ih =>
      intro hj
      show (next_permutation (npState (h :: t) j)).1 = _
      rw [ih (by omega), key j (by omega)]
      rfl
  refine ⟨hstates, ?_⟩
  intro j hj
  rw [hstates j (by omega), key j hj]

theorem mem_npStates {l : List Int} {n : Nat} {w : List Int} :
    w ∈ npStates l n ↔ ∃ j, j < n ∧ w = npState l (j + 1) := by
  unfold npStates
  constructor
  · intro h
    obtain ⟨j, hj, he⟩ := List.mem_map.mp h
    exact ⟨j, List.mem_range.mp hj, he.symm⟩
  · rintro ⟨j, hj, he⟩
    exact List.mem_map.mpr ⟨j, List.mem_range.mpr hj, he.symm⟩

theorem nodup_states_iff {L : List (List Int)} :
    L.Nodup ↔ ∀ i j, i < j → j < L.length → L.getD i [] ≠ L.getD j [] := by
  unfold List.Nodup
  rw [List.pairwise_iff_getElem]
  constructor
  · intro h i j hij hj
    rw [List.getD_eq_getElem _ _ (by omega), List.getD_eq_getElem _ _ hj]
    exact h i j (by omega) hj hij
  · intro h i j hi hj hij
    have h2 := h i j hij hj
    rwa [List.getD_eq_getElem _ _ hi, List.getD_eq_getElem _ _ hj] at h2

theorem flags_build_true {l : List Int} {n : Nat}
    (h : ∀ j, j < n → (next_permutation (npState l j)).2 = true) :
    npFlags l n = List.replicate n true := by
  apply List.ext_getElem
  · rw [npFlags_length, List.length_replicate]
  · intro j hjl hjr
    rw [npFlags_length] at hjl
    have hD := npFlags_getD l n j hjl
    rw [List.getD_eq_getElem _ _ (by rw [npFlags_length]; exact hjl)] at hD
    rw [hD, List.getElem_replicate]
    exact h j hjl

theorem strictDesc_cons {c : Int} {d : List Int} (h1 : ∀ z ∈ d, z < c)
    (h2 : StrictDesc d) : StrictDesc (c :: d) := by
  intro i hi
  simp only [List.length_cons] at hi
  cases i with
  | zero =>
    rw [List.getD_cons_zero, List.getD_cons_succ]
    apply h1
    have hd : 0 < d.length := by omega
    rw [List.getD_eq_getElem _ _ hd]
    exact List.getElem_mem hd
  | succ i =>
    rw [List.getD_cons_succ, List.getD_cons_succ]
    exact h2 i (by omega)

theorem strictDesc_reverse_sorted {d : List Int} (h : StrictDesc d) :
    d.reverse.Sorted (· < ·) := by
  have hp := strictDesc_pairwise h
  unfold List.Sorted
  rw [List.pairwise_reverse]
  exact hp

theorem strictDesc_head_max {d : List Int} (h : StrictDesc d) :
    ∀ z ∈ d, z ≤ d.getD 0 0 := by
  intro z hz
  obtain ⟨i, hi, he⟩ := List.getElem_of_mem hz
  have hz2 : z = d.getD i 0 := by rw [List.getD_eq_getElem _ _ hi, he]
  rcases Nat.eq_zero_or_pos i with h0 | h0
  · subst h0
    exact le_of_eq hz2
  · rw [hz2]
    exact le_of_lt (strictDesc_getD_lt h i 0 h0 hi)

theorem sorted_head_min {L : List Int} (h : L.Sorted (· < ·)) :
    ∀ z ∈ L, L.getD 0 0 ≤ z := by
  intro z hz
  cases L with
  | nil => cases hz
  | cons a T =>
    rw [List.getD_cons_zero]
    rcases List.mem_cons.mp hz with h1 | h1
    · exact le_of_eq h1.symm
    · exact le_of_lt (List.rel_of_sorted_cons h z h1)

theorem getD_zero_mem {w : List Int} (h : w ≠ []) : w.getD 0 0 ∈ w := by
  cases w with
  | nil => exact absurd rfl h
  | cons a t =>
    rw [List.getD_cons_zero]
    exact List.mem_cons_self a t

theorem perm_ne_nil {w L : List Int} (hp : w.Perm L) (hL : L ≠ []) : w ≠ [] := by
  intro he
  subst he
  exact hL (List.perm_nil.mp hp.symm)

theorem filter_length_split {L : List Int} {c m : Int} (hcm : c < m) (hnd : L.Nodup)
    (hsplit : ∀ z ∈ L, c ≤ z → z = c ∨ m ≤ z) (hc : c ∈ L) :
    (L.filter (fun z => decide (c ≤ z))).length
      = (L.filter (fun z => decide (m ≤ z))).length + 1 := by
  induction L with
  | nil => cases hc
  | cons a T ih =>
    have hndT : T.Nodup := (List.nodup_cons.mp hnd).2
    have haT : a ∉ T := (List.nodup_cons.mp hnd).1
    have hsplitT : ∀ z ∈ T, c ≤ z → z = c ∨ m ≤ z :=
      fun z hz => hsplit z (List.mem_cons_of_mem a hz)
    rcases List.mem_cons.mp hc with hac | hcT
    · subst hac
      rw [List.filter_cons, List.filter_cons]
      rw [if_pos (by simp), if_neg (by simp; omega)]
      have heq : T.filter (fun z => decide (c ≤ z)) = T.filter (fun z => decide (m ≤ z)) := by
        apply List.filter_congr
        intro z hzT
        by_cases hle : c ≤ z
        · rcases hsplitT z hzT hle with h2 | h2
          · exact absurd (h2 ▸ hzT) haT
          · simp [hle, h2]
        · have hml : ¬ m ≤ z := fun hm => hle (le_trans (le_of_lt hcm) hm)
          simp [hle, hml]
      rw [heq]
      simp
    · have hane : a ≠ c := by
        intro he
        subst he
        exact haT hcT
      by_cases hca : c ≤ a
      · have hma : m ≤ a := by
          rcases hsplit a (List.mem_cons_self a T) hca with h2 | h2
          · exact absurd h2 hane
          · exact h2
        rw [List.filter_cons, List.filter_cons]
        rw [if_pos (by simpa using hca), if_pos (by simpa using hma)]
        simp only [List.length_cons]
        rw [ih hndT hsplitT hcT]
      · have hma : ¬ m ≤ a := fun hm => hca (le_trans (le_of_lt hcm) hm)
        rw [List.filter_cons, List.filter_cons]
        rw [if_neg (by simpa using hca), if_neg (by simpa using hma)]
        exact ih hndT hsplitT hcT

/-- One block of the orbit: starting from `c :: u` with `u` sorted, the
first `n! - 1` calls keep the head fixed and run the tail through every
other permutation of `u`, all reporting `true`, ending at `c ::` the
descending arrangement of `u`. -/
theorem block_analysis {n : Nat}
    (IH : ∀ t : List Int, t.length = n → t.Sorted (· < ·) → NPGood t)
    {L : List Int} {c : Int} {u : List Int}
    (hL : L.Sorted (· < ·)) (hu : u.Sorted (· < ·)) (hperm : (c :: u).Perm L)
    (hn : u.length = n) :
    ∃ d : List Int,
      d.Perm u ∧ StrictDesc d
      ∧ npState (c :: u) (Nat.factorial n - 1) = c :: d
      ∧ npFlags (c :: u) (Nat.factorial n - 1)
          = List.replicate (Nat.factorial n - 1) true
      ∧ (∀ w, w ∈ npStates (c :: u) (Nat.factorial n - 1)
          ↔ ∃ w2, w = c :: w2 ∧ w2.Perm u ∧ w2 ≠ u)
      ∧ (npStates (c :: u) (Nat.factorial n - 1)).Nodup := by
  have hM1 : 1 ≤ Nat.factorial n := Nat.factorial_pos n
  have hLnd : L.Nodup := hL.nodup
  have hcund : (c :: u).Nodup := hperm.nodup_iff.mpr hLnd
  have hund : u.Nodup := (List.nodup_cons.mp hcund).2
  have hG := IH u hn hu
  unfold NPGood at hG
  rw [hn] at hG
  obtain ⟨hufinal, huflags, hund_states, hucov⟩ := hG
  have htstates : ∀ j, j ≤ Nat.factorial n - 1 → (npState u j).Perm u := by
    intro j hj
    cases j with
    | zero => exact List.Perm.refl u
    | succ i =>
      have hmem : npState u (i + 1) ∈ npStates u (Nat.factorial n) :=
        mem_npStates.mpr ⟨i, by omega, rfl⟩
      exact (hucov _).mp hmem
  have htflags : ∀ j, j < Nat.factorial n - 1 →
      (next_permutation (npState u j)).2 = true :=
    (flags_pointwise hM1 huflags).1
  have block := block_lift hcund (Nat.factorial n) htstates htflags
  have hdperm : (npState u (Nat.factorial n - 1)).Perm u :=
    htstates (Nat.factorial n - 1) (le_refl _)
  have hdnd : (npState u (Nat.factorial n - 1)).Nodup := hdperm.nodup_iff.mpr hund
  have hdesc : StrictDesc (npState u (Nat.factorial n - 1)) :=
    (np_flag_false_iff hdnd).mp (flags_pointwise hM1 huflags).2
  refine ⟨npState u (Nat.factorial n - 1), hdperm, hdesc,
    block.1 (Nat.factorial n - 1) (le_refl _), flags_build_true block.2, ?_, ?_⟩
  · intro w
    rw [mem_npStates]
    constructor
    · rintro ⟨j, hj, rfl⟩
      refine ⟨npState u (j + 1), block.1 (j + 1) (by omega),
        htstates (j + 1) (by omega), ?_⟩
      intro hequ
      have h1 : (npStates u (Nat.factorial n)).getD j [] = npState u (j + 1) :=
        npStates_getD u (Nat.factorial n) j (by omega)
      have h2 : (npStates u (Nat.factorial n)).getD (Nat.factorial n - 1) []
          = npState u (Nat.factorial n) := by
        rw [npStates_getD u (Nat.factorial n) (Nat.factorial n - 1) (by omega)]
        congr 1
        omega
      have h3 := (nodup_states_iff.mp hund_states) j (Nat.factorial n - 1)
        (by omega) (by rw [npStates_length]; omega)
      apply h3
      rw [h1, h2, hequ, hufinal]
    · rintro ⟨w2, rfl, hw2p, hw2ne⟩
      obtain ⟨j, hj, he⟩ := mem_npStates.mp ((hucov w2).mpr hw2p)
      have hjlt : j < Nat.factorial n - 1 := by
        by_contra hge
        have hjeq : j = Nat.factorial n - 1 := by omega
        subst hjeq
        apply hw2ne
        rw [he]
        have h4 : (Nat.factorial n - 1) + 1 = Nat.factorial n := by omega
        rw [h4, hufinal]
      exact ⟨j, hjlt, by rw [he, block.1 (j + 1) (by omega)]⟩
  · rw [nodup_states_iff]
    intro i j hij hj
    rw [npStates_length] at hj
    rw [npStates_getD _ _ i (by omega), npStates_getD _ _ j hj]
    rw [block.1 (i + 1) (by omega), block.1 (j + 1) (by omega)]
    intro he
    have he2 : npState u (i + 1) = npState u (j + 1) := by
      injection he
    have h3 := (nodup_states_iff.mp hund_states) i j hij
      (by rw [npStates_length]; omega)
    apply h3
    rw [npStates_getD u (Nat.factorial n) i (by omega),
      npStates_getD u (Nat.factorial n) j (by omega), he2]

/-- The orbit of `next_permutation` starting from a block head `c` whose
tail is sorted: with `r + 1` elements of `L` at or above `c`, after
`(r + 1) * n!` calls the range reaches the fully ascending arrangement
`L`, every call but the very last reports `true`, and the visited states
are exactly the permutations lying strictly beyond `c :: u`, plus `L`. -/
theorem np_orbit {n : Nat}
    (IH : ∀ t : List Int, t.length = n → t.Sorted (· < ·) → NPGood t) :
    ∀ r : Nat, ∀ L : List Int, ∀ c : Int, ∀ u : List Int,
      L.Sorted (· < ·) → u.Sorted (· < ·) → (c :: u).Perm L → u.length = n
      → (L.filter (fun z => decide (c ≤ z))).length = r + 1
      → npState (c :: u) ((r + 1) * Nat.factorial n) = L
      ∧ npFlags (c :: u) ((r + 1) * Nat.factorial n)
          = List.replicate ((r + 1) * Nat.factorial n - 1) true ++ [false]
      ∧ (npStates (c :: u) ((r + 1) * Nat.factorial n)).Nodup
      ∧ (∀ w, w ∈ npStates (c :: u) ((r + 1) * Nat.factorial n)
          ↔ w.Perm L ∧ (c < w.getD 0 0 ∨ (w.getD 0 0 = c ∧ w ≠ c :: u) ∨ w = L)) := by
  intro r
  induction r with
  | zero =>
    intro L c u hL hu hperm hn hfilt
    have hM1 : 1 ≤ Nat.factorial n := Nat.factorial_pos n
    have hLnd : L.Nodup := hL.nodup
    have hcund : (c :: u).Nodup := hperm.nodup_iff.mpr hLnd
    have hcu : c ∉ u := (List.nodup_cons.mp hcund).1
    have hcL : c ∈ L := hperm.subset (List.mem_cons_self c u)
    obtain ⟨d, hdperm, hdesc, hstate, hflagsblk, hcovblk, hndblk⟩ :=
      block_analysis IH hL hu hperm hn
    have hfeq : L.filter (fun z => decide (c ≤ z)) = [c] := by
      have hfc : c ∈ L.filter (fun z => decide (c ≤ z)) :=
        List.mem_filter.mpr ⟨hcL, by simp⟩
      cases hF : L.filter (fun z => decide (c ≤ z)) with
      | nil => rw [hF] at hfc; cases hfc
      | cons a T =>
        rw [hF] at hfilt hfc
        simp only [List.length_cons] at hfilt
        have hT : T = [] := List.length_eq_zero.mp (by omega)
        subst hT
        have hca : c = a := by simpa using hfc
        rw [hca]
    have hmax : ∀ z ∈ L, z ≤ c := by
      intro z hz
      by_contra hlt
      push_neg at hlt
      have hzf : z ∈ L.filter (fun z2 => decide (c ≤ z2)) :=
        List.mem_filter.mpr ⟨hz, by simp; omega⟩
      rw [hfeq] at hzf
      have hzc : z = c := by simpa using hzf
      omega
    have hzd : ∀ z ∈ d, z < c := by
      intro z hz
      have hzu : z ∈ u := hdperm.subset hz
      have hzL : z ∈ L := hperm.subset (List.mem_cons_of_mem c hzu)
      have h1 : z ≤ c := hmax z hzL
      have h2 : z ≠ c := fun he => hcu (he ▸ hzu)
      omega
    have hcddesc : StrictDesc (c :: d) := strictDesc_cons hzd hdesc
    have hnext : next_permutation (c :: d) = ((c :: d).reverse, false) :=
      np_desc hcddesc
    have hrevL : (c :: d).reverse = L :=
      List.eq_of_perm_of_sorted
        ((List.reverse_perm (c :: d)).trans ((hdperm.cons c).trans hperm))
        (strictDesc_reverse_sorted hcddesc) hL
    have hMe : (0 + 1) * Nat.factorial n = (Nat.factorial n - 1) + 1 := by
      simp
      omega
    have hfinal : npState (c :: u) ((0 + 1) * Nat.factorial n) = L := by
      rw [hMe]
      show (next_permutation (npState (c :: u) (Nat.factorial n - 1))).1 = L
      rw [hstate, hnext, hrevL]
    have hlastflag :
        (next_permutation (npState (c :: u) (Nat.factorial n - 1))).2 = false := by
      rw [hstate, hnext]
    have hflags : npFlags (c :: u) ((0 + 1) * Nat.factorial n)
        = List.replicate ((0 + 1) * Nat.factorial n - 1) true ++ [false] := by
      rw [hMe, npFlags_succ, hflagsblk, hlastflag, Nat.add_sub_cancel]
    have hstatesM : npStates (c :: u) ((0 + 1) * Nat.factorial n)
        = npStates (c :: u) (Nat.factorial n - 1) ++ [L] := by
      rw [hMe, npStates_succ, ← hMe, hfinal]
    have hLnotS1 : L ∉ npStates (c :: u) (Nat.factorial n - 1) := by
      intro hmem
      obtain ⟨w2, he, hp2, hne2⟩ := (hcovblk _).mp hmem
      apply hne2
      rw [he] at hL
      exact List.eq_of_perm_of_sorted hp2 hL.of_cons hu
    refine ⟨hfinal, hflags, ?_, ?_⟩
    · rw [hstatesM]
      apply hndblk.append (List.nodup_singleton L)
      intro a ha hamem
      have hae : a = L := by simpa using hamem
      subst hae
      exact hLnotS1 ha
    · intro w
      rw [hstatesM, List.mem_append]
      constructor
      · rintro (h1 | h1)
        · obtain ⟨w2, rfl, hp2, hne2⟩ := (hcovblk _).mp h1
          refine ⟨(hp2.cons c).trans hperm,
            Or.inr (Or.inl ⟨List.getD_cons_zero, ?_⟩)⟩
          intro he
          injection he with h3 h4
          exact hne2 h4
        · have hwL : w = L := by simpa using h1
          subst hwL
          exact ⟨List.Perm.refl w, Or.inr (Or.inr rfl)⟩
      · rintro ⟨hpw, hdisj⟩
        have hLne : L ≠ [] := List.ne_nil_of_mem hcL
        have hwne : w ≠ [] := perm_ne_nil hpw hLne
        rcases hdisj with h1 | ⟨h1, h2⟩ | h1
        · exfalso
          have hmem : w.getD 0 0 ∈ L := hpw.subset (getD_zero_mem hwne)
          exact absurd h1 (not_lt.mpr (hmax _ hmem))
        · cases w with
          | nil => exact absurd rfl hwne
          | cons a w2 =>
            rw [List.getD_cons_zero] at h1
            subst h1
            left
            apply (hcovblk _).mpr
            refine ⟨w2, rfl, (hpw.trans hperm.symm).cons_inv, ?_⟩
            intro he
            exact h2 (by rw [he])
        · subst h1
          right
          simp
  | succ r ihr =>
    intro L c u hL hu hperm hn hfilt
    have hM1 : 1 ≤ Nat.factorial n := Nat.factorial_pos n
    have hLnd : L.Nodup := hL.nodup
    have hcund : (c :: u).Nodup := hperm.nodup_iff.mpr hLnd
    have hcu : c ∉ u := (List.nodup_cons.mp hcund).1
    have hcL : c ∈ L := hperm.subset (List.mem_cons_self c u)
    have hLne : L ≠ [] := List.ne_nil_of_mem hcL
    obtain ⟨d, hdperm, hdesc, hstate, hflagsblk, hcovblk, hndblk⟩ :=
      block_analysis IH hL hu hperm hn
    have hex : ∃ z, z ∈ L ∧ c < z := by
      by_contra hno
      push_neg at hno
      have hsub : ∀ z ∈ L.filter (fun z2 => decide (c ≤ z2)), z = c := by
        intro z hz
        have h1 := List.mem_filter.mp hz
        have h2 : c ≤ z := by simpa using h1.2
        exact le_antisymm (hno z h1.1) h2
      have hfnd := hLnd.filter (fun z2 => decide (c ≤ z2))
      cases hF : L.filter (fun z2 => decide (c ≤ z2)) with
      | nil =>
        rw [hF] at hfilt
        simp only [List.length_nil] at hfilt
        omega
      | cons a T =>
        cases T with
        | nil =>
          rw [hF] at hfilt
          simp only [List.length_cons, List.length_nil] at hfilt
          omega
        | cons b T2 =>
          rw [hF] at hsub hfnd
          have ha := hsub a (by simp)
          have hb := hsub b (by simp)
          rw [List.nodup_cons] at hfnd
          apply hfnd.1
          rw [ha, ← hb]
          simp
    obtain ⟨z0, hz0L, hz0c⟩ := hex
    have hz0u : z0 ∈ u := by
      rcases List.mem_cons.mp (hperm.symm.subset hz0L) with h1 | h1
      · omega
      · exact h1
    have hz0d : z0 ∈ d := hdperm.mem_iff.mpr hz0u
    have hdne : d ≠ [] := List.ne_nil_of_mem hz0d
    have hchead : c < d.getD 0 0 :=
      lt_of_lt_of_le hz0c (strictDesc_head_max hdesc z0 hz0d)
    have hcnotd : c ∉ d := fun h => hcu (hdperm.subset h)
    obtain ⟨m0, hm0, hnext, hcm, hmin, hu2sorted, hpermroll⟩ :=
      np_roll hdesc hdne hchead hcnotd
    have hmd : d.getD m0 0 ∈ d := by
      rw [List.getD_eq_getElem _ _ hm0]
      exact List.getElem_mem hm0
    have hminL : ∀ z ∈ L, c < z → d.getD m0 0 ≤ z := by
      intro z hz hcz
      have hzu : z ∈ u := by
        rcases List.mem_cons.mp (hperm.symm.subset hz) with h1 | h1
        · omega
        · exact h1
      exact hmin z (hdperm.mem_iff.mpr hzu) hcz
    have hfiltm : (L.filter (fun z => decide (d.getD m0 0 ≤ z))).length = r + 1 := by
      have hsplit : ∀ z ∈ L, c ≤ z → z = c ∨ d.getD m0 0 ≤ z := by
        intro z hz hcz
        rcases lt_or_eq_of_le hcz with h1 | h1
        · exact Or.inr (hminL z hz h1)
        · exact Or.inl h1.symm
      have h2 := filter_length_split hcm hLnd hsplit hcL
      omega
    have hstateM : npState (c :: u) (Nat.factorial n)
        = d.getD m0 0 :: (d.set m0 c).reverse := by
      rw [show Nat.factorial n = (Nat.factorial n - 1) + 1 by omega]
      show (next_permutation (npState (c :: u) (Nat.factorial n - 1))).1 = _
      rw [hstate, hnext]
    have hflagM :
        (next_permutation (npState (c :: u) (Nat.factorial n - 1))).2 = true := by
      rw [hstate, hnext]
    have hpermm : ((d.getD m0 0) :: (d.set m0 c).reverse).Perm L :=
      hpermroll.trans ((hdperm.cons c).trans hperm)
    have hu2len : ((d.set m0 c).reverse).length = n := by
      have h1 := hpermm.length_eq
      have h2 := hperm.length_eq
      have h3 := hdperm.length_eq
      simp only [List.length_cons, List.length_reverse, List.length_set] at h1 h2 ⊢
      omega
    obtain ⟨ihfinal, ihflags, ihnodup, ihcov⟩ :=
      ihr L (d.getD m0 0) ((d.set m0 c).reverse) hL hu2sorted hpermm hu2len hfiltm
    have hKpos : 1 ≤ (r + 1) * Nat.factorial n := Nat.mul_pos (by omega) hM1
    have hT : (r + 1 + 1) * Nat.factorial n
        = Nat.factorial n + (r + 1) * Nat.factorial n := by ring
    have hblockflags : npFlags (c :: u) (Nat.factorial n)
        = List.replicate (Nat.factorial n) true := by
      rw [show Nat.factorial n = (Nat.factorial n - 1) + 1 by omega,
        npFlags_succ, hflagsblk, hflagM, ← List.replicate_succ']
    have hstatesM2 : npStates (c :: u) (Nat.factorial n)
        = npStates (c :: u) (Nat.factorial n - 1)
          ++ [d.getD m0 0 :: (d.set m0 c).reverse] := by
      have h1 : Nat.factorial n = (Nat.factorial n - 1) + 1 := by omega
      conv_lhs => rw [h1, npStates_succ]
      rw [← h1, hstateM]
    refine ⟨?_, ?_, ?_, ?_⟩
    · rw [hT, npState_add, hstateM]
      exact ihfinal
    · rw [hT, npFlags_add, hstateM, ihflags, hblockflags, ← List.append_assoc,
        ← List.replicate_add]
      have h5 : Nat.factorial n + ((r + 1) * Nat.factorial n - 1)
          = Nat.factorial n + (r + 1) * Nat.factorial n - 1 := by omega
      rw [h5]
    · rw [hT, npStates_add, hstateM]
      refine List.Nodup.append ?_ ihnodup ?_
      · rw [hstatesM2]
        refine hndblk.append (List.nodup_singleton _) ?_
        intro a ha hamem
        have hae : a = d.getD m0 0 :: (d.set m0 c).reverse := by simpa using hamem
        subst hae
        obtain ⟨w2, he, hp2, hne2⟩ := (hcovblk _).mp ha
        injection he with h3 h4
        omega
      · intro a ha hamem
        rw [hstatesM2, List.mem_append] at ha
        have haS2 := (ihcov a).mp hamem
        rcases ha with ha1 | ha1
        · obtain ⟨w2, rfl, hp2, hne2⟩ := (hcovblk _).mp ha1
          rcases haS2.2 with h1 | ⟨h1, h2⟩ | h1
          · rw [List.getD_cons_zero] at h1
            omega
          · rw [List.getD_cons_zero] at h1
            omega
          · apply hne2
            rw [← h1] at hL
            exact List.eq_of_perm_of_sorted hp2 hL.of_cons hu
        · have hae : a = d.getD m0 0 :: (d.set m0 c).reverse := by simpa using ha1
          subst hae
          rcases haS2.2 with h1 | ⟨h1, h2⟩ | h1
          · rw [List.getD_cons_zero] at h1
            omega
          · exact h2 rfl
          · have hheadL : L.getD 0 0 ≤ c := sorted_head_min hL c hcL
            rw [← h1, List.getD_cons_zero] at hheadL
            omega
    · intro w
      rw [hT, npStates_add, hstateM, List.mem_append, hstatesM2, List.mem_append]
      constructor
      · rintro ((h1 | h1) | h1)
        · obtain ⟨w2, rfl, hp2, hne2⟩ := (hcovblk _).mp h1
          refine ⟨(hp2.cons c).trans hperm,
            Or.inr (Or.inl ⟨List.getD_cons_zero, ?_⟩)⟩
          intro he
          injection he with h3 h4
          exact hne2 h4
        · have hae : w = d.getD m0 0 :: (d.set m0 c).reverse := by simpa using h1
          subst hae
          refine ⟨hpermm, Or.inl ?_⟩
          rw [List.getD_cons_zero]
          exact hcm
        · obtain ⟨hpw, hdis⟩ := (ihcov w).mp h1
          refine ⟨hpw, ?_⟩
          rcases hdis with h2 | ⟨h2, h3⟩ | h2
          · exact Or.inl (lt_trans hcm h2)
          · exact Or.inl (by rw [h2]; exact hcm)
          · exact Or.inr (Or.inr h2)
      · rintro ⟨hpw, hdis⟩
        have hwne : w ≠ [] := perm_ne_nil hpw hLne
        rcases hdis with h1 | ⟨h1, h2⟩ | h1
        · have hmem : w.getD 0 0 ∈ L := hpw.subset (getD_zero_mem hwne)
          have hmle : d.getD m0 0 ≤ w.getD 0 0 := hminL _ hmem h1
          rcases lt_or_eq_of_le hmle with h3 | h3
          · right
            exact (ihcov w).mpr ⟨hpw, Or.inl h3⟩
          · by_cases h4 : w = d.getD m0 0 :: (d.set m0 c).reverse
            · left
              right
              simp [h4]
            · right
              exact (ihcov w).mpr ⟨hpw, Or.inr (Or.inl ⟨h3.symm, h4⟩)⟩
        · cases w with
          | nil => exact absurd rfl hwne
          | cons a w2 =>
            rw [List.getD_cons_zero] at h1
            subst h1
            left
            left
            apply (hcovblk _).mpr
            refine ⟨w2, rfl, (hpw.trans hperm.symm).cons_inv, ?_⟩
            intro he
            exact h2 (by rw [he])
        · right
          exact (ihcov w).mpr ⟨hpw, Or.inr (Or.inr h1)⟩

/-- For every sorted duplicate-free range, the full `length!`-step run of
`next_permutation` satisfies `NPGood`. -/
theorem np_main : ∀ n : Nat, ∀ l : List Int, l.length = n → l.Sorted (· < ·) → NPGood l := by
  intro n
  induction n with
  | zero =>
    intro l hlen hsort
    have hl : l = [] := List.length_eq_zero.mp hlen
    subst hl
    unfold NPGood
    have hS : npStates ([] : List Int) (Nat.factorial (List.length ([] : List Int)))
        = [[]] := by decide
    refine ⟨by decide, by decide, by decide, ?_⟩
    intro w
    rw [hS, List.mem_singleton, List.perm_nil]
  | succ n ih =>
    intro l hlen hsort
    cases l with
    | nil => simp at hlen
    | cons c u =>
      have hu : u.Sorted (· < ·) := hsort.of_cons
      have hn : u.length = n := by simpa using hlen
      have hperm : (c :: u).Perm (c :: u) := List.Perm.refl _
      have hfilt : ((c :: u).filter (fun z => decide (c ≤ z))).length = n + 1 := by
        have hall : (c :: u).filter (fun z => decide (c ≤ z)) = c :: u := by
          apply List.filter_eq_self.mpr
          intro a ha
          simp only [decide_eq_true_eq]
          rcases List.mem_cons.mp ha with h1 | h1
          · exact le_of_eq h1.symm
          · exact le_of_lt (List.rel_of_sorted_cons hsort a h1)
        rw [hall]
        simpa using hlen
      obtain ⟨h1, h2, h3, h4⟩ := np_orbit ih n (c :: u) c u hsort hu hperm hn hfilt
      unfold NPGood
      rw [hlen, Nat.factorial_succ]
      refine ⟨h1, h2, h3, ?_⟩
      intro w
      rw [h4 w]
      constructor
      · exact fun h => h.1
      · intro hpw
        refine ⟨hpw, ?_⟩
        have hwne : w ≠ [] := perm_ne_nil hpw (by simp)
        have hmem : w.getD 0 0 ∈ c :: u := hpw.subset (getD_zero_mem hwne)
        have hge : c ≤ w.getD 0 0 := by
          rcases List.mem_cons.mp hmem with h5 | h5
          · exact le_of_eq h5.symm
          · exact le_of_lt (List.rel_of_sorted_cons hsort _ h5)
        rcases lt_or_eq_of_le hge with h5 | h5
        · exact Or.inl h5
        · by_cases h6 : w = c :: u
          · exact Or.inr (Or.inr h6)
          · exact Or.inr (Or.inl ⟨h5.symm, h6⟩)

/-- C8 (amended): starting from a range of distinct elements in ascending
order, applying `next_permutation` `length!` times returns to the
ascending arrangement, every call but the very last returns `true` and
the last returns `false`, and the successive states visit every
permutation of the range exactly once. -/
theorem c8_next_permutation_full_cycle (l : List Int) (h : l.Sorted (· < ·)) :
    npState l (Nat.factorial l.length) = l
    ∧ npFlags l (Nat.factorial l.length)
        = List.replicate (Nat.factorial l.length - 1) true ++ [false]
    ∧ (npStates l (Nat.factorial l.length)).Nodup
    ∧ (∀ w, w ∈ npStates l (Nat.factorial l.length) ↔ w.Perm l) :=
  np_main l.length l rfl h

/-- Witness: the concrete cycle on `[1, 2, 3]` (3! = 6 calls), with the
coverage clause instantiated at the permutation `[2, 1, 3]`. -/
theorem c8_next_permutation_full_cycle_witness :
    ([1, 2, 3] : List Int).Sorted (· < ·)
    ∧ npState [1, 2, 3] (Nat.factorial 3) = [1, 2, 3]
    ∧ npFlags [1, 2, 3] (Nat.factorial 3)
        = List.replicate (Nat.factorial 3 - 1) true ++ [false]
    ∧ (npStates [1, 2, 3] (Nat.factorial 3)).Nodup
    ∧ ([2, 1, 3] ∈ npStates [1, 2, 3] (Nat.factorial 3)
        ↔ ([2, 1, 3] : List Int).Perm [1, 2, 3]) := by
  have h := c8_next_permutation_full_cycle [1, 2, 3] (by decide)
  exact ⟨by decide, h.1, h.2.1, h.2.2.1, h.2.2.2 [2, 1, 3]⟩

/-- C8 counterexample to the claim as stated: on the range `[2, 1]` of 2
distinct elements (not in ascending order), the 2! = 2 calls report
`[false, true]` - the single `false` arrives on the first call, not on
the final one. -/
theorem c8_claim_counterexample :
    ([2, 1] : List Int).Nodup
    ∧ npFlags [2, 1] (Nat.factorial 2) = [false, true]
    ∧ npFlags [2, 1] (Nat.factorial 2)
        ≠ List.replicate (Nat.factorial 2 - 1) true ++ [false] :=
  ⟨by decide, by decide, by decide⟩

end TSTL
